import Mathlib

/-!
Verification development for the `pyimportparse` library: a lossy,
position-preserving parser that extracts Python import statements from source
text.  The main parser lives in `src/lib.rs` (embedded below in namespace
`Pyimport`), a smaller prototype in `src/nom.rs` (namespace `Pyimport.NomRs`).

The embedding is a shallow one over `List Char`.  A parser state `PS` carries
the remaining input together with the current 1-based line number (mirroring
`nom_locate::LocatedSpan`); every successful parser returns a state obtained by
`PS.adv k`, which drops `k` characters and bumps the line number by the number
of newline characters consumed.  Loops (`many0`, `separated_list1`) take an
explicit fuel argument so that all definitions are structurally recursive and
evaluate by `decide`/`rfl`; call sites pass `rest.length + 1`, which is shown
to be sufficient because every loop iteration consumes at least one character
(nom returns a `Many0`/`SeparatedList` error on a zero-consumption iteration,
which the embeddings mirror with an explicit progress check).

Unicode note: nom's `alphanumeric1` accepts Unicode alphanumerics; the
embedding uses `Char.isAlphanum` (ASCII), which agrees with it on all inputs
appearing in the claims.
-/

namespace Pyimport

/-- Parser state: remaining input and current 1-based line number
(mirrors `nom_locate::LocatedSpan<&str>`). -/
structure PS where
  rest : List Char
  line : Nat
deriving DecidableEq, Repr

/-- Number of newline characters in a list (used for line accounting). -/
def countNL (l : List Char) : Nat := l.count '\n'

/-- Advance the state by `k` characters, bumping the line number by the number
of newlines consumed.  Every primitive parser produces its output state through
this single helper. -/
def PS.adv (st : PS) (k : Nat) : PS :=
  ⟨st.rest.drop k, st.line + countNL (st.rest.take k)⟩

/-- The text consumed between a state and a later state reached from it
(mirrors `input.take_split(s.location_offset() - input.location_offset())`). -/
def consumedBetween (st st' : PS) : List Char :=
  st.rest.take (st.rest.length - st'.rest.length)

/-- `nom::bytes::complete::tag`: match an exact string. -/
def pTag (t : List Char) (st : PS) : Option PS :=
  if t.isPrefixOf st.rest then some (st.adv t.length) else none

/-- `opt(tag(t))` as a total state transformer. -/
def optTagState (t : List Char) (st : PS) : PS :=
  match pTag t st with
  | some s => s
  | none => st

/-- Identifier characters: `[A-Za-z0-9_]` (cf. `alphanumeric1` / `tag("_")`). -/
def identChar (c : Char) : Bool := c.isAlphanum || c == '_'

/-- Length of the maximal leading run of identifier characters. -/
def identLen : List Char → Nat
  | [] => 0
  | c :: t => if identChar c then identLen t + 1 else 0

/-- `parse_identifier`: `recognize(many1(alt((alphanumeric1, tag("_")))))`,
i.e. the maximal non-empty run of alphanumeric/underscore characters. -/
def parse_identifier (st : PS) : Option (PS × List Char) :=
  if identLen st.rest = 0 then none
  else some (st.adv (identLen st.rest), st.rest.take (identLen st.rest))

/-- Length of the maximal leading run matched by
`many0(alt((space1, tag("\\\n"))))`: spaces, tabs, and backslash-newline
continuations. -/
def spaceLen : List Char → Nat
  | ' ' :: t => spaceLen t + 1
  | '\t' :: t => spaceLen t + 1
  | '\\' :: '\n' :: t => spaceLen t + 2
  | _ => 0

/-- `parse_space0`: `many0(alt((space1, tag("\\\n"))))`; it cannot fail, so it
is modelled as a total state transformer. -/
def parse_space0 (st : PS) : PS := st.adv (spaceLen st.rest)

/-- `parse_space1`: `many1(alt((space1, tag("\\\n"))))`. -/
def parse_space1 (st : PS) : Option PS :=
  if spaceLen st.rest = 0 then none else some (st.adv (spaceLen st.rest))

/-- Length of the maximal leading run of plain horizontal whitespace
(`nom`'s `space0`/`space1`: spaces and tabs only). -/
def plainSpaceLen : List Char → Nat
  | ' ' :: t => plainSpaceLen t + 1
  | '\t' :: t => plainSpaceLen t + 1
  | _ => 0

/-- `nom::character::complete::space0` (cannot fail). -/
def plainSpace0 (st : PS) : PS := st.adv (plainSpaceLen st.rest)

/-- `nom::character::complete::space1`, returning the consumed fragment
(the indentation capture in `parse_indented_block` needs it). -/
def plainSpace1 (st : PS) : Option (PS × List Char) :=
  if plainSpaceLen st.rest = 0 then none
  else some (st.adv (plainSpaceLen st.rest), st.rest.take (plainSpaceLen st.rest))

/-- `nom::character::complete::line_ending`: `"\n"` or `"\r\n"`. -/
def pLineEnding (st : PS) : Option PS :=
  match st.rest with
  | '\n' :: _ => some (st.adv 1)
  | '\r' :: '\n' :: _ => some (st.adv 2)
  | _ => none

/-- Number of characters `nom`'s `not_line_ending` consumes: everything up to
the first `\r` or `\n`; a `\r` not followed by `\n` is an error (`none`). -/
def nleLen : List Char → Option Nat
  | [] => some 0
  | '\n' :: _ => some 0
  | '\r' :: t => match t with
    | '\n' :: _ => some 0
    | _ => none
  | _ :: t => (nleLen t).map (· + 1)

/-- `nom::character::complete::not_line_ending`, returning the consumed
fragment. -/
def pNotLineEnding (st : PS) : Option (PS × List Char) :=
  match nleLen st.rest with
  | none => none
  | some k => some (st.adv k, st.rest.take k)

/-- Length of the maximal leading run of `multispace1` characters
(space, tab, carriage return, newline). -/
def msLen : List Char → Nat
  | ' ' :: t => msLen t + 1
  | '\t' :: t => msLen t + 1
  | '\r' :: t => msLen t + 1
  | '\n' :: t => msLen t + 1
  | _ => 0

/-- `nom::character::complete::multispace1`. -/
def pMultispace1 (st : PS) : Option PS :=
  if msLen st.rest = 0 then none else some (st.adv (msLen st.rest))

/-- Index of the first occurrence of `pat` as a contiguous subsequence
(used by `take_until`). -/
def firstOccIdx (pat : List Char) : List Char → Option Nat
  | [] => if pat.isPrefixOf ([] : List Char) then some 0 else none
  | c :: t =>
    if pat.isPrefixOf (c :: t) then some 0 else (firstOccIdx pat t).map (· + 1)

/-- `nom::bytes::complete::take_until`: consume up to (not including) the
first occurrence of `pat`; error if `pat` does not occur. -/
def pTakeUntil (pat : List Char) (st : PS) : Option PS :=
  match firstOccIdx pat st.rest with
  | none => none
  | some k => some (st.adv k)

/-- The `"""` delimiter. -/
def q3 : List Char := ['"', '"', '"']

/-- The `'''` delimiter. -/
def t3 : List Char := [Char.ofNat 39, Char.ofNat 39, Char.ofNat 39]

/-- `delimited(tag(d), take_until(d), tag(d))`. -/
def pDelimitedBy (d : List Char) (st : PS) : Option PS :=
  match pTag d st with
  | none => none
  | some st1 =>
    match pTakeUntil d st1 with
    | none => none
    | some st2 => pTag d st2

/-- `parse_multiline_comment`: a `"""…"""` or `'''…'''` block literal. -/
def parse_multiline_comment (st : PS) : Option PS :=
  match pDelimitedBy q3 st with
  | some st' => some st'
  | none => pDelimitedBy t3 st

/-- `parse_comment`: `(tag("#"), not_line_ending)`. -/
def parse_comment (st : PS) : Option PS :=
  match pTag ['#'] st with
  | none => none
  | some st1 =>
    match pNotLineEnding st1 with
    | none => none
    | some (st2, _) => some st2

/-- Loop body of `parse_multispace0_or_comment`:
`many0(alt((value((), multispace1), parse_comment)))`, with fuel.  Both
alternatives consume at least one character, so fuel `rest.length + 1` never
runs out. -/
def ms0cLoop : Nat → PS → Option PS
  | 0, _ => none
  | f + 1, st =>
    match pMultispace1 st with
    | some st' => ms0cLoop f st'
    | none =>
      match parse_comment st with
      | some st' => ms0cLoop f st'
      | none => some st

/-- `parse_multispace0_or_comment`. -/
def ms0c (st : PS) : Option PS := ms0cLoop (st.rest.length + 1) st

/-- Generic `nom::multi::many0` with fuel.  The progress check mirrors nom's
`Many0` error on a zero-consumption iteration (expressed as `<` rather than
`≠` because every parser under test only ever drops input). -/
def many0F {α : Type} (p : PS → Option (PS × α)) : Nat → PS → Option (PS × List α)
  | 0, _ => none
  | f + 1, st =>
    match p st with
    | none => some (st, [])
    | some (st', a) =>
      if st'.rest.length < st.rest.length then
        match many0F p f st' with
        | none => none
        | some (st'', l) => some (st'', a :: l)
      else none

/-- Loop of `nom::multi::separated_list1` (after the first element): try
separator then element; a failing element backtracks the separator; a
separator that consumes nothing is nom's `SeparatedList` error.  The final
progress check mirrors the fact that in nom the element can only shrink the
input further. -/
def sepListLoop {α : Type} (sep : PS → Option PS) (p : PS → Option (PS × α)) :
    Nat → PS → Option (PS × List α)
  | 0, _ => none
  | f + 1, st =>
    match sep st with
    | none => some (st, [])
    | some st1 =>
      if st1.rest.length = st.rest.length then none
      else
        match p st1 with
        | none => some (st, [])
        | some (st2, a) =>
          if st2.rest.length < st.rest.length then
            match sepListLoop sep p f st2 with
            | none => none
            | some (st3, l) => some (st3, a :: l)
          else none

/-- `nom::multi::separated_list1` with fuel. -/
def sepList1F {α : Type} (sep : PS → Option PS) (p : PS → Option (PS × α))
    (fuel : Nat) (st : PS) : Option (PS × List α) :=
  match p st with
  | none => none
  | some (st1, a) =>
    match sepListLoop sep p fuel st1 with
    | none => none
    | some (st2, l) => some (st2, a :: l)

/-- One iteration of the dotted-module tail: `(tag("."), parse_identifier)`. -/
def pDotIdent (st : PS) : Option (PS × Unit) :=
  match pTag ['.'] st with
  | none => none
  | some st1 =>
    match parse_identifier st1 with
    | none => none
    | some (st2, _) => some (st2, ())

/-- `parse_module`: `recognize(separated_list1(tag("."), parse_identifier))`.
The separator backtracks, so a trailing dot is left unconsumed. -/
def parse_module (st : PS) : Option (PS × List Char) :=
  match parse_identifier st with
  | none => none
  | some (st1, _) =>
    match many0F pDotIdent (st1.rest.length + 1) st1 with
    | none => none
    | some (st2, _) => some (st2, consumedBetween st st2)

/-- Length of the maximal leading run of dots (`many0(tag("."))` /
`many1(tag("."))`). -/
def dotRunLen : List Char → Nat
  | '.' :: t => dotRunLen t + 1
  | _ => 0

/-- `parse_relative_module`:
`alt((recognize((many0(tag(".")), parse_module)), recognize(many1(tag(".")))))`. -/
def parse_relative_module (st : PS) : Option (PS × List Char) :=
  match parse_module (st.adv (dotRunLen st.rest)) with
  | some (st2, _) => some (st2, consumedBetween st st2)
  | none =>
    if dotRunLen st.rest = 0 then none
    else some (st.adv (dotRunLen st.rest), st.rest.take (dotRunLen st.rest))

/-- `opt((parse_space1, tag("as"), parse_space1, parse_identifier))`:
the optional `as` alias; the whole group backtracks on failure. -/
def optAsAlias (st : PS) : PS :=
  match parse_space1 st with
  | none => st
  | some st1 =>
    match pTag ['a', 's'] st1 with
    | none => st
    | some st2 =>
      match parse_space1 st2 with
      | none => st
      | some st3 =>
        match parse_identifier st3 with
        | none => st
        | some (st4, _) => st4

/-- `opt((multispace1, tag("as"), multispace1, parse_identifier))`: the alias
form used inside parenthesised import lists. -/
def optAsAliasMS (st : PS) : PS :=
  match pMultispace1 st with
  | none => st
  | some st1 =>
    match pTag ['a', 's'] st1 with
    | none => st
    | some st2 =>
      match pMultispace1 st2 with
      | none => st
      | some st3 =>
        match parse_identifier st3 with
        | none => st
        | some (st4, _) => st4

/-- `opt((space1, tag("as"), space1, parse_identifier))`: the alias form of
the `src/nom.rs` prototype (plain whitespace, no continuations). -/
def optAsAliasPlain (st : PS) : PS :=
  match plainSpace1 st with
  | none => st
  | some (st1, _) =>
    match pTag ['a', 's'] st1 with
    | none => st
    | some st2 =>
      match plainSpace1 st2 with
      | none => st
      | some (st3, _) =>
        match parse_identifier st3 with
        | none => st
        | some (st4, _) => st4

/-- `delimited(parse_space0, tag(","), parse_space0)`. -/
def sepCommaSpace (st : PS) : Option PS :=
  match pTag [','] (parse_space0 st) with
  | none => none
  | some st1 => some (parse_space0 st1)

/-- `delimited(parse_space0, tag(";"), parse_space0)`. -/
def sepSemi (st : PS) : Option PS :=
  match pTag [';'] (parse_space0 st) with
  | none => none
  | some st1 => some (parse_space0 st1)

/-- `delimited(parse_multispace0_or_comment, tag(","), parse_multispace0_or_comment)`. -/
def sepCommaMS (st : PS) : Option PS :=
  match ms0c st with
  | none => none
  | some st0 =>
    match pTag [','] st0 with
    | none => none
    | some st1 => ms0c st1

/-- An extracted import record (the `Import` struct of `lib.rs`). -/
structure Import where
  imported_object : List Char
  line_number : Nat
  line_contents : List Char
  typechecking_only : Bool
deriving DecidableEq, Repr

/-- A `module [as alias]` item of a simple import statement. -/
def modAliasItem (st : PS) : Option (PS × List Char) :=
  match parse_module st with
  | none => none
  | some (st1, m) => some (optAsAlias st1, m)

/-- An `identifier [as alias]` item of a single-line from-import statement. -/
def identAliasItem (st : PS) : Option (PS × List Char) :=
  match parse_identifier st with
  | none => none
  | some (st1, i) => some (optAsAlias st1, i)

/-- An `identifier [as alias]` item inside a parenthesised import list. -/
def identAliasItemMS (st : PS) : Option (PS × List Char) :=
  match parse_identifier st with
  | none => none
  | some (st1, i) => some (optAsAliasMS st1, i)

/-- The canonical-name computation of `parse_from_import_statement` /
`parse_multiline_from_import_statement` (`lib.rs` lines 140-144 and 195-199):
`base + ident` when `base` ends in a dot, else `base + "." + ident`. -/
def mkFromObject (base i : List Char) : List Char :=
  if base.getLast? = some '.' then base ++ i else base ++ '.' :: i

/-- `parse_import_statement`: `import m1 [as a1], m2 [as a2], …`. -/
def parse_import_statement (tco : Bool) (st : PS) : Option (PS × List Import) :=
  match pTag "import".toList st with
  | none => none
  | some st1 =>
    match parse_space1 st1 with
    | none => none
    | some st2 =>
      match sepList1F sepCommaSpace modAliasItem (st2.rest.length + 1) st2 with
      | none => none
      | some (st3, mods) =>
        some (st3, mods.map fun m => ⟨m, st.line, consumedBetween st st3, tco⟩)

/-- `parse_from_import_statement`: `from relmod import i1 [as a1], …`. -/
def parse_from_import_statement (tco : Bool) (st : PS) : Option (PS × List Import) :=
  match pTag "from".toList st with
  | none => none
  | some st1 =>
    match parse_space1 st1 with
    | none => none
    | some st2 =>
      match parse_relative_module st2 with
      | none => none
      | some (st3, base) =>
        match parse_space1 st3 with
        | none => none
        | some st4 =>
          match pTag "import".toList st4 with
          | none => none
          | some st5 =>
            match parse_space1 st5 with
            | none => none
            | some st6 =>
              match sepList1F sepCommaSpace identAliasItem (st6.rest.length + 1) st6 with
              | none => none
              | some (st7, ids) =>
                some (st7, ids.map fun i =>
                  ⟨mkFromObject base i, st.line, consumedBetween st st7, tco⟩)

/-- `parse_multiline_from_import_statement`:
`from relmod import ( i1 [as a1], … [,] )` with comments/newlines inside. -/
def parse_multiline_from_import_statement (tco : Bool) (st : PS) :
    Option (PS × List Import) :=
  match pTag "from".toList st with
  | none => none
  | some st1 =>
    match parse_space1 st1 with
    | none => none
    | some st2 =>
      match parse_relative_module st2 with
      | none => none
      | some (st3, base) =>
        match parse_space1 st3 with
        | none => none
        | some st4 =>
          match pTag "import".toList st4 with
          | none => none
          | some st5 =>
            match parse_space1 st5 with
            | none => none
            | some st6 =>
              match pTag ['('] st6 with
              | none => none
              | some st7 =>
                match ms0c st7 with
                | none => none
                | some st8 =>
                  match sepList1F sepCommaMS identAliasItemMS (st8.rest.length + 1) st8 with
                  | none => none
                  | some (st9, ids) =>
                    match ms0c st9 with
                    | none => none
                    | some stA =>
                      match ms0c (optTagState [','] stA) with
                      | none => none
                      | some stC =>
                        match pTag [')'] stC with
                        | none => none
                        | some stD =>
                          some (stD, ids.map fun i =>
                            ⟨mkFromObject base i, st.line, consumedBetween st stD, tco⟩)

/-- `parse_wildcard_from_import_statement`: `from relmod import *`
(`lib.rs` lines 222-226 compute the canonical name). -/
def parse_wildcard_from_import_statement (tco : Bool) (st : PS) :
    Option (PS × List Import) :=
  match pTag "from".toList st with
  | none => none
  | some st1 =>
    match parse_space1 st1 with
    | none => none
    | some st2 =>
      match parse_relative_module st2 with
      | none => none
      | some (st3, base) =>
        match parse_space1 st3 with
        | none => none
        | some st4 =>
          match pTag "import".toList st4 with
          | none => none
          | some st5 =>
            match parse_space1 st5 with
            | none => none
            | some st6 =>
              match pTag ['*'] st6 with
              | none => none
              | some st7 =>
                some (st7, [⟨(if base.getLast? = some '.' then base ++ ['*']
                  else base ++ ['.', '*']), st.line, consumedBetween st st7, tco⟩])

/-- The four-way statement alternative inside `parse_import_statement_list`,
in source order. -/
def parse_import_statement_any (tco : Bool) (st : PS) : Option (PS × List Import) :=
  match parse_import_statement tco st with
  | some r => some r
  | none =>
    match parse_from_import_statement tco st with
    | some r => some r
    | none =>
      match parse_multiline_from_import_statement tco st with
      | some r => some r
      | none => parse_wildcard_from_import_statement tco st

/-- `parse_import_statement_list`: a `;`-separated chain of statements with an
optional trailing `;` (and `opt(parse_space0)` before it). -/
def parse_import_statement_list (tco : Bool) (st : PS) : Option (PS × List Import) :=
  match sepList1F sepSemi (parse_import_statement_any tco) (st.rest.length + 1) st with
  | none => none
  | some (st1, imps) =>
    some (optTagState [';'] (parse_space0 st1), imps.flatten)

/-- `opt(parse_comment)` as a total state transformer. -/
def optCommentState (st : PS) : PS :=
  match parse_comment st with
  | some s => s
  | none => st

/-- `opt(line_ending)` as a total state transformer. -/
def optLineEndingState (st : PS) : PS :=
  match pLineEnding st with
  | some s => s
  | none => st

/-- A blank line: `(space0, line_ending)`. -/
def blankLine (st : PS) : Option (PS × Unit) :=
  match pLineEnding (plainSpace0 st) with
  | none => none
  | some st' => some (st', ())

/-- A line of the indented block: blank, or starting with the captured
indentation (`alt` in source order: blank first). -/
def indentedLine (indent : List Char) (st : PS) : Option (PS × Unit) :=
  match blankLine st with
  | some r => some r
  | none =>
    match pTag indent st with
    | none => none
    | some stA =>
      match pNotLineEnding stA with
      | none => none
      | some (stB, _) => some (optLineEndingState stB, ())

/-- `parse_indented_block`: skip blank lines, capture the indentation of the
first non-blank line, then take every following line that is blank or starts
with that exact indentation.  Returns (continuation, block slice). -/
def parse_indented_block (st : PS) : Option (PS × List Char) :=
  match many0F blankLine (st.rest.length + 1) st with
  | none => none
  | some (st1, _) =>
    match plainSpace1 st1 with
    | none => none
    | some (st2, indent) =>
      match pNotLineEnding st2 with
      | none => none
      | some (st3, _) =>
        match many0F (indentedLine indent)
            ((optLineEndingState st3).rest.length + 1) (optLineEndingState st3) with
        | none => none
        | some (st5, _) => some (st5, consumedBetween st st5)

/-- `parse_if_typechecking`, parameterised by the recursive block parser used
on the indented block (instantiated with `parse_block fuel true`). -/
def parse_if_typechecking_gen (recBlock : PS → Option (PS × List Import))
    (st : PS) : Option (PS × List Import) :=
  match pTag "if".toList st with
  | none => none
  | some st1 =>
    match parse_space1 st1 with
    | none => none
    | some st2 =>
      match (match pTag "TYPE_CHECKING".toList st2 with
             | some s => some s
             | none => pTag "typing.TYPE_CHECKING".toList st2) with
      | none => none
      | some st3 =>
        match pTag [':'] (parse_space0 st3) with
        | none => none
        | some st5 =>
          match (match parse_import_statement_list true (parse_space0 st5) with
                 | none => none
                 | some (st7, imps) =>
                   some (optCommentState (parse_space0 st7), imps)) with
          | some r => some r
          | none =>
            match pLineEnding (optCommentState (parse_space0 st5)) with
            | none => none
            | some stC =>
              match parse_indented_block stC with
              | none => none
              | some (stD, blockChars) =>
                match recBlock ⟨blockChars, stC.line⟩ with
                | none => none
                | some (stE, imps) =>
                  if stE.rest.isEmpty then some (stD, imps) else none

/-- One alternative round of the block driver (`parse_block`'s `alt`), in
source order: if-typechecking, whitespace, line ending, block literal,
comment, statement list, catch-all skip of a non-empty line fragment. -/
def block_step_gen (recBlock : PS → Option (PS × List Import)) (tco : Bool)
    (st : PS) : Option (PS × List Import) :=
  match parse_if_typechecking_gen recBlock st with
  | some r => some r
  | none =>
    match parse_space1 st with
    | some st' => some (st', [])
    | none =>
      match pLineEnding st with
      | some st' => some (st', [])
      | none =>
        match parse_multiline_comment st with
        | some st' => some (st', [])
        | none =>
          match parse_comment st with
          | some st' => some (st', [])
          | none =>
            match parse_import_statement_list tco st with
            | some r => some r
            | none =>
              match pNotLineEnding st with
              | none => none
              | some (st', v) => if v.isEmpty then none else some (st', [])

/-- `parse_block`: `many0` over the driver alternatives, flattened.  The fuel
argument bounds the nesting depth of `if TYPE_CHECKING:` blocks (each nesting
strictly shrinks the input, so `input.length + 1` always suffices). -/
def parse_block : Nat → Bool → PS → Option (PS × List Import)
  | 0, _, _ => none
  | fuel + 1, tco, st =>
    match many0F (block_step_gen (fun s => parse_block fuel true s) tco)
        (st.rest.length + 1) st with
    | none => none
    | some (st', ls) => some (st', ls.flatten)

/-- `parse_imports`: run the driver on the whole input starting at line 1 and
require all input to be consumed (`all_consuming`); `none` models the
`Err(String)` channel. -/
def parse_imports (s : List Char) : Option (List Import) :=
  match parse_block (s.length + 1) false ⟨s, 1⟩ with
  | none => none
  | some (st', recs) => if st'.rest.isEmpty then some recs else none

/-- The canonical-name law as worded by the spec (§8): for a relative module
`m` and identifier `i`, the name is `m + i` when `m` ends in `.`, else
`m + "." + i`.  Stated separately from `mkFromObject` (which transcribes the
code) so that the two can be compared. -/
def specCanonicalName (m i : List Char) : List Char :=
  if m.getLast? = some '.' then m ++ i else m ++ '.' :: i

/-! ## The `src/nom.rs` prototype parser

It shares `parse_module`, `parse_identifier` and `parse_comment` with the
main parser (the Rust sources duplicate them verbatim); its whitespace is
nom's plain `space0`/`space1` and its trailing newline is `newline` (`'\n'`
only, not `line_ending`). -/

namespace NomRs

/-- The `Import` struct of `src/nom.rs` (no `line_contents` field). -/
structure Import where
  imported_object : List Char
  line_number : Nat
  typechecking_only : Bool
deriving DecidableEq, Repr

/-- `delimited(space0, tag(","), space0)`. -/
def sepCommaPlain (st : PS) : Option PS :=
  match pTag [','] (plainSpace0 st) with
  | none => none
  | some st1 => some (plainSpace0 st1)

/-- `terminated((position, parse_module), opt((space1, tag("as"), space1,
parse_identifier)))`: a module item with its start line. -/
def posModItem (st : PS) : Option (PS × (Nat × List Char)) :=
  match parse_module st with
  | none => none
  | some (st1, m) => some (optAsAliasPlain st1, (st.line, m))

/-- `parse_import_statement` of `src/nom.rs`. -/
def parse_import_statement (st : PS) : Option (PS × List Import) :=
  match pTag "import".toList st with
  | none => none
  | some st1 =>
    match plainSpace1 st1 with
    | none => none
    | some (st2, _) =>
      match sepList1F sepCommaPlain posModItem (st2.rest.length + 1) st2 with
      | none => none
      | some (st3, items) =>
        some (optTagState ['\n'] (optCommentState (plainSpace0 st3)),
          items.map fun it => ⟨it.2, it.1, false⟩)

/-- `parse_imports` of `src/nom.rs`:
`all_consuming(many0(parse_import_statement))`. -/
def parse_imports (s : List Char) : Option (List Import) :=
  match many0F parse_import_statement (s.length + 1) ⟨s, 1⟩ with
  | none => none
  | some (st, ls) => if st.rest.isEmpty then some ls.flatten else none

end NomRs

/-! ## Predicates used by the specification theorems -/

/-- `st'` is reachable from `st` by dropping some characters (every parser's
output state is of this form). -/
def Adv (st st' : PS) : Prop := ∃ k, st' = st.adv k

/-- Every `\r` is immediately followed by `\n`. -/
def noLoneCR : List Char → Bool
  | [] => true
  | '\r' :: t =>
    match t with
    | '\n' :: _ => noLoneCR t
    | _ => false
  | _ :: t => noLoneCR t

/-- Contains neither a line feed nor a carriage return. -/
def noCRLF (l : List Char) : Bool := l.all fun c => !(c == '\n' || c == '\r')

/-- All records have line numbers within `[lo, hi]`. -/
def recsWithin (lo hi : Nat) (l : List Import) : Prop :=
  ∀ r ∈ l, lo ≤ r.line_number ∧ r.line_number ≤ hi

/-- Records appear in non-decreasing `line_number` order. -/
def recsSorted (l : List Import) : Prop :=
  l.Pairwise fun a b => a.line_number ≤ b.line_number

/-! ## A syntactic family of simple-import programs

For the prototype/main refinement claim: programs consisting solely of simple
`import` lines, given by their parse trees and rendered to text with canonical
single-space layout (`import <module> [as <alias>][, ...] [# comment]`). -/

/-- One `module [as alias]` item: the module as its dot-separated identifier
segments, plus an optional alias identifier. -/
structure SItem where
  segs : List (List Char)
  al : Option (List Char)

/-- One source line: a non-empty item list and an optional trailing comment. -/
structure SLine where
  items : List SItem
  com : Option (List Char)

/-- Render segments as a dotted module name. -/
def renderSegs : List (List Char) → List Char
  | [] => []
  | [s] => s
  | s :: rest => s ++ '.' :: renderSegs rest

/-- Render one item (`module` or `module as alias`). -/
def renderItem (it : SItem) : List Char :=
  renderSegs it.segs ++ (match it.al with
    | none => []
    | some a => ' ' :: 'a' :: 's' :: ' ' :: a)

/-- Render an item list, comma-separated. -/
def renderItems : List SItem → List Char
  | [] => []
  | [it] => renderItem it
  | it :: rest => renderItem it ++ ',' :: ' ' :: renderItems rest

/-- Render one line (`import items [# comment]`, without the newline). -/
def renderLine (l : SLine) : List Char :=
  "import ".toList ++ renderItems l.items ++ (match l.com with
    | none => []
    | some c => ' ' :: '#' :: c)

/-- Render a program: each line followed by a newline. -/
def renderProg : List SLine → List Char
  | [] => []
  | l :: ls => renderLine l ++ '\n' :: renderProg ls

/-- A well-formed identifier: non-empty, identifier characters only. -/
def validIdent (i : List Char) : Prop := i ≠ [] ∧ ∀ c ∈ i, identChar c = true

/-- A well-formed item: non-empty segment list of valid identifiers, valid
alias if present. -/
def validItem (it : SItem) : Prop :=
  it.segs ≠ [] ∧ (∀ s ∈ it.segs, validIdent s) ∧ ∀ a ∈ it.al, validIdent a

/-- A well-formed line: at least one item, all items valid, and a comment
free of line terminators. -/
def validLine (l : SLine) : Prop :=
  l.items ≠ [] ∧ (∀ it ∈ l.items, validItem it) ∧ ∀ c ∈ l.com, noCRLF c = true

/-- A well-formed program. -/
def validProg (p : List SLine) : Prop := ∀ l ∈ p, validLine l

/-- The (imported_object, line_number) pairs a simple-import program denotes,
starting at line `n`. -/
def expectedPairs (n : Nat) : List SLine → List (List Char × Nat)
  | [] => []
  | l :: ls => l.items.map (fun it => (renderSegs it.segs, n)) ++ expectedPairs (n + 1) ls

/-- What must hold of the text following a statement for the item/statement
parsers to stop exactly there: no identifier or dot continuation, the alias
probes back off, and none of the list separators match. -/
def StopSuffix (suf : List Char) : Prop :=
  identLen suf = 0 ∧ suf.head? ≠ some '.' ∧
  (∀ l, optAsAlias ⟨suf, l⟩ = ⟨suf, l⟩) ∧
  (∀ l, optAsAliasPlain ⟨suf, l⟩ = ⟨suf, l⟩) ∧
  (∀ l, sepCommaSpace ⟨suf, l⟩ = none) ∧
  (∀ l, NomRs.sepCommaPlain ⟨suf, l⟩ = none) ∧
  (∀ l, sepSemi ⟨suf, l⟩ = none)

/-! ## Basic algebra of `PS.adv` -/

theorem countNL_append (a b : List Char) : countNL (a ++ b) = countNL a + countNL b := by
  simp [countNL, List.count_append]

theorem countNL_take_le (l : List Char) (k : Nat) : countNL (l.take k) ≤ countNL l := by
  conv_rhs => rw [← List.take_append_drop k l]
  rw [countNL_append]
  omega

theorem adv_zero (st : PS) : st.adv 0 = st := by
  simp [PS.adv, countNL]

theorem adv_adv (st : PS) (k1 k2 : Nat) : (st.adv k1).adv k2 = st.adv (k1 + k2) := by
  unfold PS.adv
  simp only [List.drop_drop, List.take_add, countNL_append]
  rw [Nat.add_assoc]

theorem adv_rest (st : PS) (k : Nat) : (st.adv k).rest = st.rest.drop k := rfl

theorem adv_line_le (st : PS) (k : Nat) : st.line ≤ (st.adv k).line := by
  simp [PS.adv]

theorem adv_length_le (st : PS) (k : Nat) :
    (st.adv k).rest.length ≤ st.rest.length := by
  simp [PS.adv]

theorem adv_length_lt (st : PS) (k : Nat) (hk : 1 ≤ k) (h : st.rest ≠ []) :
    (st.adv k).rest.length < st.rest.length := by
  have : st.rest.length ≠ 0 := by simpa using List.length_pos.mpr h |>.ne'
  simp only [PS.adv, List.length_drop]
  omega



theorem Adv.refl (st : PS) : Adv st st := ⟨0, (adv_zero st).symm⟩

theorem Adv.trans {s1 s2 s3 : PS} (h1 : Adv s1 s2) (h2 : Adv s2 s3) : Adv s1 s3 := by
  obtain ⟨k1, rfl⟩ := h1
  obtain ⟨k2, rfl⟩ := h2
  exact ⟨k1 + k2, adv_adv s1 k1 k2⟩

theorem Adv.line_le {s1 s2 : PS} (h : Adv s1 s2) : s1.line ≤ s2.line := by
  obtain ⟨k, rfl⟩ := h
  exact adv_line_le s1 k

theorem Adv.length_le {s1 s2 : PS} (h : Adv s1 s2) : s2.rest.length ≤ s1.rest.length := by
  obtain ⟨k, rfl⟩ := h
  exact adv_length_le s1 k

/-! ## Well-formed line endings

`noLoneCR l` says every carriage return in `l` is immediately followed by a
line feed.  nom's `not_line_ending` errors exactly on a lone `\r`, which is
the one way the block driver can get stuck. -/



theorem noLoneCR_cons_other {c : Char} {t : List Char} (hr : c ≠ '\r') :
    noLoneCR (c :: t) = noLoneCR t := by
  simp [noLoneCR, hr]

theorem noLoneCR_cons_cr {t : List Char} :
    noLoneCR ('\r' :: t) = match t with
      | '\n' :: _ => noLoneCR t
      | _ => false := by
  simp [noLoneCR]

theorem noLoneCR_tail {c : Char} {t : List Char} (h : noLoneCR (c :: t) = true) :
    noLoneCR t = true := by
  by_cases hc : c = '\r'
  · subst hc
    rw [noLoneCR_cons_cr] at h
    cases t with
    | nil => simp [noLoneCR]
    | cons d t' =>
      by_cases hd : d = '\n'
      · subst hd
        simpa using h
      · exfalso
        revert h
        cases d
        simp_all
  · rwa [noLoneCR_cons_other hc] at h

theorem noLoneCR_drop (l : List Char) (k : Nat) (h : noLoneCR l = true) :
    noLoneCR (l.drop k) = true := by
  induction k generalizing l with
  | zero => simpa using h
  | succ n ih =>
    cases l with
    | nil => simp [noLoneCR]
    | cons c t =>
      rw [List.drop_succ_cons]
      exact ih t (noLoneCR_tail h)

theorem nleLen_cons_other {c : Char} {t : List Char} (hn : c ≠ '\n') (hr : c ≠ '\r') :
    nleLen (c :: t) = (nleLen t).map (· + 1) := by
  simp [nleLen, hn, hr]

theorem nleLen_isSome_of_noLoneCR (l : List Char) (h : noLoneCR l = true) :
    (nleLen l).isSome = true := by
  induction l with
  | nil => simp [nleLen]
  | cons c t ih =>
    by_cases hr : c = '\r'
    · subst hr
      rw [noLoneCR_cons_cr] at h
      cases t with
      | nil => simp at h
      | cons d t' =>
        by_cases hd : d = '\n'
        · subst hd
          simp [nleLen]
        · exfalso
          revert h
          cases d
          simp_all
    · by_cases hn : c = '\n'
      · subst hn
        simp [nleLen]
      · rw [nleLen_cons_other hn hr]
        have := ih (noLoneCR_tail h)
        rcases Option.isSome_iff_exists.mp this with ⟨a, ha⟩
        simp [ha]

/-- If `nleLen` reports zero consumable characters, the input is empty or
starts with a line terminator. -/
theorem nleLen_zero_cases {l : List Char} (h : nleLen l = some 0) :
    l = [] ∨ (∃ t, l = '\n' :: t) ∨ ∃ t, l = '\r' :: '\n' :: t := by
  cases l with
  | nil => exact Or.inl rfl
  | cons c t =>
    by_cases hn : c = '\n'
    · exact Or.inr (Or.inl ⟨t, by rw [hn]⟩)
    · by_cases hr : c = '\r'
      · subst hr
        cases t with
        | nil => simp [nleLen] at h
        | cons d t' =>
          by_cases hd : d = '\n'
          · subst hd
            exact Or.inr (Or.inr ⟨t', rfl⟩)
          · exfalso
            revert h
            simp only [nleLen]
            cases d
            simp_all
      · exfalso
        rw [nleLen_cons_other hn hr] at h
        rw [Option.map_eq_some'] at h
        obtain ⟨a, _, ha⟩ := h
        omega

/-! ## Every parser only advances its state

For each parser: success produces a state reachable from the input state by
`PS.adv`.  These lemmas feed both the line-number accounting and the progress
argument of the block driver. -/

theorem pTag_some {t : List Char} {st st' : PS} (h : pTag t st = some st') :
    st' = st.adv t.length ∧ t.isPrefixOf st.rest = true := by
  unfold pTag at h
  split at h
  · exact ⟨by simpa using h.symm, by assumption⟩
  · exact absurd h (by simp)

theorem pTag_adv {t : List Char} {st st' : PS} (h : pTag t st = some st') :
    Adv st st' :=
  ⟨t.length, (pTag_some h).1⟩

theorem pTag_rest_ne {t : List Char} {st st' : PS} (ht : t ≠ [])
    (h : pTag t st = some st') : st.rest ≠ [] := by
  obtain ⟨-, hp⟩ := pTag_some h
  intro hr
  rw [hr] at hp
  rw [List.isPrefixOf_iff_prefix] at hp
  exact ht (List.prefix_nil.mp hp)

theorem pTag_length_lt {t : List Char} {st st' : PS} (ht : t ≠ [])
    (h : pTag t st = some st') : st'.rest.length < st.rest.length := by
  obtain ⟨h1, -⟩ := pTag_some h
  rw [h1]
  exact adv_length_lt st t.length (by cases t <;> simp_all) (pTag_rest_ne ht h)

theorem parse_identifier_adv {st st' : PS} {v : List Char}
    (h : parse_identifier st = some (st', v)) : Adv st st' := by
  unfold parse_identifier at h
  split at h
  · exact absurd h (by simp)
  · exact ⟨identLen st.rest, by simp_all⟩

theorem parse_space0_adv (st : PS) : Adv st (parse_space0 st) := ⟨_, rfl⟩

theorem parse_space1_adv {st st' : PS} (h : parse_space1 st = some st') :
    Adv st st' := by
  unfold parse_space1 at h
  split at h
  · exact absurd h (by simp)
  · exact ⟨spaceLen st.rest, by simp_all⟩

theorem spaceLen_nil : spaceLen [] = 0 := rfl

theorem parse_space1_length_lt {st st' : PS} (h : parse_space1 st = some st') :
    st'.rest.length < st.rest.length := by
  unfold parse_space1 at h
  split at h
  · exact absurd h (by simp)
  · rename_i hne
    have hrest : st.rest ≠ [] := by
      intro hr
      rw [hr, spaceLen_nil] at hne
      exact hne rfl
    have h' : st' = st.adv (spaceLen st.rest) := by simp_all
    rw [h']
    exact adv_length_lt st _ (by omega) hrest

theorem plainSpace0_adv (st : PS) : Adv st (plainSpace0 st) := ⟨_, rfl⟩

theorem plainSpace1_adv {st st' : PS} {v : List Char}
    (h : plainSpace1 st = some (st', v)) : Adv st st' := by
  unfold plainSpace1 at h
  split at h
  · exact absurd h (by simp)
  · exact ⟨plainSpaceLen st.rest, by simp_all⟩

theorem pLineEnding_adv {st st' : PS} (h : pLineEnding st = some st') :
    Adv st st' := by
  unfold pLineEnding at h
  split at h
  · exact ⟨1, by simp_all⟩
  · exact ⟨2, by simp_all⟩
  · exact absurd h (by simp)

theorem pLineEnding_length_lt {st st' : PS} (h : pLineEnding st = some st') :
    st'.rest.length < st.rest.length := by
  unfold pLineEnding at h
  split at h
  · rename_i heq
    cases h
    exact adv_length_lt st _ (by omega) (by rw [heq]; simp)
  · rename_i heq
    cases h
    exact adv_length_lt st _ (by omega) (by rw [heq]; simp)
  · exact absurd h (by simp)

theorem pNotLineEnding_adv {st st' : PS} {v : List Char}
    (h : pNotLineEnding st = some (st', v)) : Adv st st' := by
  unfold pNotLineEnding at h
  split at h
  · exact absurd h (by simp)
  · rename_i k heq
    refine ⟨k, ?_⟩
    simp only [Option.some.injEq, Prod.mk.injEq] at h
    exact h.1.symm

theorem pMultispace1_adv {st st' : PS} (h : pMultispace1 st = some st') :
    Adv st st' := by
  unfold pMultispace1 at h
  split at h
  · exact absurd h (by simp)
  · exact ⟨msLen st.rest, by simp_all⟩

theorem msLen_nil : msLen [] = 0 := rfl

theorem pMultispace1_length_lt {st st' : PS} (h : pMultispace1 st = some st') :
    st'.rest.length < st.rest.length := by
  unfold pMultispace1 at h
  split at h
  · exact absurd h (by simp)
  · rename_i hne
    have hrest : st.rest ≠ [] := by
      intro hr
      rw [hr, msLen_nil] at hne
      exact hne rfl
    have h' : st' = st.adv (msLen st.rest) := by simp_all
    rw [h']
    exact adv_length_lt st _ (by omega) hrest

theorem pTakeUntil_adv {pat : List Char} {st st' : PS}
    (h : pTakeUntil pat st = some st') : Adv st st' := by
  unfold pTakeUntil at h
  split at h
  · exact absurd h (by simp)
  · rename_i k heq
    refine ⟨k, ?_⟩
    simpa using h.symm

theorem pDelimitedBy_adv {d : List Char} {st st' : PS}
    (h : pDelimitedBy d st = some st') : Adv st st' := by
  unfold pDelimitedBy at h
  split at h
  · exact absurd h (by simp)
  · rename_i st1 h1
    split at h
    · exact absurd h (by simp)
    · rename_i st2 h2
      exact ((pTag_adv h1).trans (pTakeUntil_adv h2)).trans (pTag_adv h)

theorem parse_multiline_comment_adv {st st' : PS}
    (h : parse_multiline_comment st = some st') : Adv st st' := by
  unfold parse_multiline_comment at h
  split at h
  · rename_i h1
    cases h
    exact pDelimitedBy_adv h1
  · exact pDelimitedBy_adv h

theorem parse_comment_adv {st st' : PS} (h : parse_comment st = some st') :
    Adv st st' := by
  unfold parse_comment at h
  split at h
  · exact absurd h (by simp)
  · rename_i st1 h1
    split at h
    · exact absurd h (by simp)
    · rename_i st2 v h2
      cases h
      exact (pTag_adv h1).trans (pNotLineEnding_adv h2)

theorem pDelimitedBy_length_lt {d : List Char} {st st' : PS} (hd : d ≠ [])
    (h : pDelimitedBy d st = some st') : st'.rest.length < st.rest.length := by
  unfold pDelimitedBy at h
  split at h
  · exact absurd h (by simp)
  · rename_i st1 h1
    split at h
    · exact absurd h (by simp)
    · rename_i st2 h2
      exact lt_of_le_of_lt ((pTakeUntil_adv h2).trans (pTag_adv h)).length_le
        (pTag_length_lt hd h1)

theorem parse_multiline_comment_length_lt {st st' : PS}
    (h : parse_multiline_comment st = some st') :
    st'.rest.length < st.rest.length := by
  unfold parse_multiline_comment at h
  split at h
  · rename_i h1
    cases h
    exact pDelimitedBy_length_lt (by decide) h1
  · exact pDelimitedBy_length_lt (by decide) h

theorem parse_comment_length_lt {st st' : PS} (h : parse_comment st = some st') :
    st'.rest.length < st.rest.length := by
  unfold parse_comment at h
  split at h
  · exact absurd h (by simp)
  · rename_i st1 h1
    split at h
    · exact absurd h (by simp)
    · rename_i st2 v h2
      cases h
      exact lt_of_le_of_lt (pNotLineEnding_adv h2).length_le
        (pTag_length_lt (by decide) h1)

/-- When `not_line_ending` consumes a non-empty fragment the state strictly
shrinks (the `verify` of driver rule 7). -/
theorem pNotLineEnding_length_lt_of_ne {st st' : PS} {v : List Char}
    (h : pNotLineEnding st = some (st', v)) (hv : v ≠ []) :
    st'.rest.length < st.rest.length := by
  unfold pNotLineEnding at h
  split at h
  · exact absurd h (by simp)
  · rename_i k heq
    simp only [Option.some.injEq, Prod.mk.injEq] at h
    obtain ⟨h1, h2⟩ := h
    rw [← h1]
    have hk : k ≠ 0 := by
      intro hk0
      rw [hk0] at h2
      simp at h2
      exact hv h2
    have hrest : st.rest ≠ [] := by
      intro hr
      rw [hr] at h2
      simp at h2
      exact hv h2
    exact adv_length_lt st k (by omega) hrest

theorem ms0cLoop_adv : ∀ {f : Nat} {st st' : PS}, ms0cLoop f st = some st' →
    Adv st st' := by
  intro f
  induction f with
  | zero => intro st st' h; exact absurd h (by simp [ms0cLoop])
  | succ n ih =>
    intro st st' h
    unfold ms0cLoop at h
    split at h
    · rename_i st1 h1
      exact (pMultispace1_adv h1).trans (ih h)
    · split at h
      · rename_i st1 h1
        exact (parse_comment_adv h1).trans (ih h)
      · cases h
        exact Adv.refl st

theorem ms0c_adv {st st' : PS} (h : ms0c st = some st') : Adv st st' :=
  ms0cLoop_adv h

theorem many0F_adv {α : Type} {p : PS → Option (PS × α)}
    (hp : ∀ s s' a, p s = some (s', a) → Adv s s') :
    ∀ {f : Nat} {st st' : PS} {l : List α}, many0F p f st = some (st', l) →
    Adv st st' := by
  intro f
  induction f with
  | zero => intro st st' l h; exact absurd h (by simp [many0F])
  | succ n ih =>
    intro st st' l h
    unfold many0F at h
    split at h
    · cases h
      exact Adv.refl st
    · rename_i st1 a h1
      split at h
      · split at h
        · exact absurd h (by simp)
        · rename_i st2 l2 h2
          cases h
          exact (hp _ _ _ h1).trans (ih h2)
      · exact absurd h (by simp)

theorem sepListLoop_adv {α : Type} {sep : PS → Option PS} {p : PS → Option (PS × α)}
    (hsep : ∀ s s', sep s = some s' → Adv s s')
    (hp : ∀ s s' a, p s = some (s', a) → Adv s s') :
    ∀ {f : Nat} {st st' : PS} {l : List α}, sepListLoop sep p f st = some (st', l) →
    Adv st st' := by
  intro f
  induction f with
  | zero => intro st st' l h; exact absurd h (by simp [sepListLoop])
  | succ n ih =>
    intro st st' l h
    unfold sepListLoop at h
    split at h
    · cases h
      exact Adv.refl st
    · rename_i st1 h1
      split at h
      · exact absurd h (by simp)
      · split at h
        · cases h
          exact Adv.refl st
        · rename_i st2 a h2
          split at h
          · split at h
            · exact absurd h (by simp)
            · rename_i st3 l3 h3
              cases h
              exact (((hsep _ _ h1).trans (hp _ _ _ h2)).trans (ih h3))
          · exact absurd h (by simp)

theorem sepList1F_adv {α : Type} {sep : PS → Option PS} {p : PS → Option (PS × α)}
    (hsep : ∀ s s', sep s = some s' → Adv s s')
    (hp : ∀ s s' a, p s = some (s', a) → Adv s s')
    {f : Nat} {st st' : PS} {l : List α} (h : sepList1F sep p f st = some (st', l)) :
    Adv st st' := by
  unfold sepList1F at h
  split at h
  · exact absurd h (by simp)
  · rename_i st1 a h1
    split at h
    · exact absurd h (by simp)
    · rename_i st2 l2 h2
      cases h
      exact (hp _ _ _ h1).trans (sepListLoop_adv hsep hp h2)

theorem pDotIdent_adv {st st' : PS} {u : Unit} (h : pDotIdent st = some (st', u)) :
    Adv st st' := by
  unfold pDotIdent at h
  split at h
  · exact absurd h (by simp)
  · rename_i st1 h1
    split at h
    · exact absurd h (by simp)
    · rename_i st2 v h2
      cases h
      exact (pTag_adv h1).trans (parse_identifier_adv h2)

theorem parse_module_adv {st st' : PS} {v : List Char}
    (h : parse_module st = some (st', v)) : Adv st st' := by
  unfold parse_module at h
  split at h
  · exact absurd h (by simp)
  · rename_i st1 v1 h1
    split at h
    · exact absurd h (by simp)
    · rename_i st2 l2 h2
      cases h
      exact (parse_identifier_adv h1).trans (many0F_adv (fun s s' a ha => pDotIdent_adv ha) h2)

theorem parse_relative_module_adv {st st' : PS} {v : List Char}
    (h : parse_relative_module st = some (st', v)) : Adv st st' := by
  unfold parse_relative_module at h
  split at h
  · rename_i st2 v2 h2
    cases h
    have hd : Adv st (st.adv (dotRunLen st.rest)) := ⟨dotRunLen st.rest, rfl⟩
    exact hd.trans (parse_module_adv h2)
  · split at h
    · exact absurd h (by simp)
    · cases h
      exact ⟨dotRunLen st.rest, rfl⟩

theorem optAsAlias_adv (st : PS) : Adv st (optAsAlias st) := by
  unfold optAsAlias
  split
  · exact Adv.refl st
  · rename_i st1 h1
    split
    · exact Adv.refl st
    · rename_i st2 h2
      split
      · exact Adv.refl st
      · rename_i st3 h3
        split
        · exact Adv.refl st
        · rename_i st4 v h4
          exact (((parse_space1_adv h1).trans (pTag_adv h2)).trans
            (parse_space1_adv h3)).trans (parse_identifier_adv h4)

theorem optAsAliasMS_adv (st : PS) : Adv st (optAsAliasMS st) := by
  unfold optAsAliasMS
  split
  · exact Adv.refl st
  · rename_i st1 h1
    split
    · exact Adv.refl st
    · rename_i st2 h2
      split
      · exact Adv.refl st
      · rename_i st3 h3
        split
        · exact Adv.refl st
        · rename_i st4 v h4
          exact (((pMultispace1_adv h1).trans (pTag_adv h2)).trans
            (pMultispace1_adv h3)).trans (parse_identifier_adv h4)

theorem optAsAliasPlain_adv (st : PS) : Adv st (optAsAliasPlain st) := by
  unfold optAsAliasPlain
  split
  · exact Adv.refl st
  · rename_i st1 v1 h1
    split
    · exact Adv.refl st
    · rename_i st2 h2
      split
      · exact Adv.refl st
      · rename_i st3 v3 h3
        split
        · exact Adv.refl st
        · rename_i st4 v h4
          exact (((plainSpace1_adv h1).trans (pTag_adv h2)).trans
            (plainSpace1_adv h3)).trans (parse_identifier_adv h4)

theorem sepCommaSpace_adv {st st' : PS} (h : sepCommaSpace st = some st') :
    Adv st st' := by
  unfold sepCommaSpace at h
  split at h
  · exact absurd h (by simp)
  · rename_i st1 h1
    cases h
    exact ((parse_space0_adv st).trans (pTag_adv h1)).trans (parse_space0_adv st1)

theorem sepSemi_adv {st st' : PS} (h : sepSemi st = some st') : Adv st st' := by
  unfold sepSemi at h
  split at h
  · exact absurd h (by simp)
  · rename_i st1 h1
    cases h
    exact ((parse_space0_adv st).trans (pTag_adv h1)).trans (parse_space0_adv st1)

theorem sepCommaMS_adv {st st' : PS} (h : sepCommaMS st = some st') :
    Adv st st' := by
  unfold sepCommaMS at h
  split at h
  · exact absurd h (by simp)
  · rename_i st0 h0
    split at h
    · exact absurd h (by simp)
    · rename_i st1 h1
      exact ((ms0c_adv h0).trans (pTag_adv h1)).trans (ms0c_adv h)

theorem modAliasItem_adv {st st' : PS} {v : List Char}
    (h : modAliasItem st = some (st', v)) : Adv st st' := by
  unfold modAliasItem at h
  split at h
  · exact absurd h (by simp)
  · rename_i st1 m h1
    cases h
    exact (parse_module_adv h1).trans (optAsAlias_adv st1)

theorem identAliasItem_adv {st st' : PS} {v : List Char}
    (h : identAliasItem st = some (st', v)) : Adv st st' := by
  unfold identAliasItem at h
  split at h
  · exact absurd h (by simp)
  · rename_i st1 i h1
    cases h
    exact (parse_identifier_adv h1).trans (optAsAlias_adv st1)

theorem identAliasItemMS_adv {st st' : PS} {v : List Char}
    (h : identAliasItemMS st = some (st', v)) : Adv st st' := by
  unfold identAliasItemMS at h
  split at h
  · exact absurd h (by simp)
  · rename_i st1 i h1
    cases h
    exact (parse_identifier_adv h1).trans (optAsAliasMS_adv st1)

theorem optTagState_adv (t : List Char) (st : PS) : Adv st (optTagState t st) := by
  unfold optTagState
  split
  · rename_i s h
    exact pTag_adv h
  · exact Adv.refl st

theorem optCommentState_adv (st : PS) : Adv st (optCommentState st) := by
  unfold optCommentState
  split
  · rename_i s h
    exact parse_comment_adv h
  · exact Adv.refl st

theorem sepCommaSpace_adv' : ∀ s s', sepCommaSpace s = some s' → Adv s s' :=
  fun _ _ h => sepCommaSpace_adv h

theorem modAliasItem_adv' : ∀ s s' (a : List Char), modAliasItem s = some (s', a) → Adv s s' :=
  fun _ _ _ h => modAliasItem_adv h

theorem identAliasItem_adv' : ∀ s s' (a : List Char), identAliasItem s = some (s', a) → Adv s s' :=
  fun _ _ _ h => identAliasItem_adv h

/-- `parse_import_statement`: the state only advances and strictly shrinks,
and every record of a single statement carries the statement's start line
(the `position` captured before `tag("import")`). -/
theorem parse_import_statement_spec {tco : Bool} {st st' : PS} {recs : List Import}
    (h : parse_import_statement tco st = some (st', recs)) :
    Adv st st' ∧ st'.rest.length < st.rest.length ∧
      ∀ r ∈ recs, r.line_number = st.line := by
  unfold parse_import_statement at h
  split at h
  · exact absurd h (by simp)
  · rename_i st1 h1
    split at h
    · exact absurd h (by simp)
    · rename_i st2 h2
      split at h
      · exact absurd h (by simp)
      · rename_i st3 mods h3
        simp only [Option.some.injEq, Prod.mk.injEq] at h
        obtain ⟨rfl, rfl⟩ := h
        have tail : Adv st1 st3 := (parse_space1_adv h2).trans
          (sepList1F_adv sepCommaSpace_adv' modAliasItem_adv' h3)
        refine ⟨(pTag_adv h1).trans tail,
          lt_of_le_of_lt tail.length_le (pTag_length_lt (by decide) h1), ?_⟩
        intro r hr
        simp only [List.mem_map] at hr
        obtain ⟨m, -, rfl⟩ := hr
        rfl

/-- `parse_from_import_statement` advances, strictly shrinks, and stamps the
start line. -/
theorem parse_from_import_statement_spec {tco : Bool} {st st' : PS} {recs : List Import}
    (h : parse_from_import_statement tco st = some (st', recs)) :
    Adv st st' ∧ st'.rest.length < st.rest.length ∧
      ∀ r ∈ recs, r.line_number = st.line := by
  unfold parse_from_import_statement at h
  split at h
  · exact absurd h (by simp)
  · rename_i st1 h1
    split at h
    · exact absurd h (by simp)
    · rename_i st2 h2
      split at h
      · exact absurd h (by simp)
      · rename_i st3 base h3
        split at h
        · exact absurd h (by simp)
        · rename_i st4 h4
          split at h
          · exact absurd h (by simp)
          · rename_i st5 h5
            split at h
            · exact absurd h (by simp)
            · rename_i st6 h6
              split at h
              · exact absurd h (by simp)
              · rename_i st7 ids h7
                simp only [Option.some.injEq, Prod.mk.injEq] at h
                obtain ⟨rfl, rfl⟩ := h
                have tail : Adv st1 st7 := ((((((parse_space1_adv h2).trans
                  (parse_relative_module_adv h3)).trans (parse_space1_adv h4)).trans
                  (pTag_adv h5)).trans (parse_space1_adv h6)).trans
                  (sepList1F_adv sepCommaSpace_adv' identAliasItem_adv' h7))
                refine ⟨(pTag_adv h1).trans tail,
                  lt_of_le_of_lt tail.length_le (pTag_length_lt (by decide) h1), ?_⟩
                intro r hr
                simp only [List.mem_map] at hr
                obtain ⟨i, -, rfl⟩ := hr
                rfl

theorem sepCommaMS_adv' : ∀ s s', sepCommaMS s = some s' → Adv s s' :=
  fun _ _ h => sepCommaMS_adv h

theorem identAliasItemMS_adv' : ∀ s s' (a : List Char), identAliasItemMS s = some (s', a) → Adv s s' :=
  fun _ _ _ h => identAliasItemMS_adv h

/-- `parse_multiline_from_import_statement` advances, strictly shrinks, and
stamps the start line. -/
theorem parse_multiline_from_import_statement_spec {tco : Bool} {st st' : PS}
    {recs : List Import}
    (h : parse_multiline_from_import_statement tco st = some (st', recs)) :
    Adv st st' ∧ st'.rest.length < st.rest.length ∧
      ∀ r ∈ recs, r.line_number = st.line := by
  unfold parse_multiline_from_import_statement at h
  split at h
  · exact absurd h (by simp)
  · rename_i st1 h1
    split at h
    · exact absurd h (by simp)
    · rename_i st2 h2
      split at h
      · exact absurd h (by simp)
      · rename_i st3 base h3
        split at h
        · exact absurd h (by simp)
        · rename_i st4 h4
          split at h
          · exact absurd h (by simp)
          · rename_i st5 h5
            split at h
            · exact absurd h (by simp)
            · rename_i st6 h6
              split at h
              · exact absurd h (by simp)
              · rename_i st7 h7
                split at h
                · exact absurd h (by simp)
                · rename_i st8 h8
                  split at h
                  · exact absurd h (by simp)
                  · rename_i st9 ids h9
                    split at h
                    · exact absurd h (by simp)
                    · rename_i stA hA
                      split at h
                      · exact absurd h (by simp)
                      · rename_i stC hC
                        split at h
                        · exact absurd h (by simp)
                        · rename_i stD hD
                          simp only [Option.some.injEq, Prod.mk.injEq] at h
                          obtain ⟨rfl, rfl⟩ := h
                          have a1 := parse_space1_adv h2
                          have a2 := a1.trans (parse_relative_module_adv h3)
                          have a3 := a2.trans (parse_space1_adv h4)
                          have a4 := a3.trans (pTag_adv h5)
                          have a5 := a4.trans (parse_space1_adv h6)
                          have a6 := a5.trans (pTag_adv h7)
                          have a7 := a6.trans (ms0c_adv h8)
                          have a8 := a7.trans
                            (sepList1F_adv sepCommaMS_adv' identAliasItemMS_adv' h9)
                          have a9 := a8.trans (ms0c_adv hA)
                          have aA := a9.trans (optTagState_adv [','] stA)
                          have aB := aA.trans (ms0c_adv hC)
                          have tail := aB.trans (pTag_adv hD)
                          refine ⟨(pTag_adv h1).trans tail,
                            lt_of_le_of_lt tail.length_le
                              (pTag_length_lt (by decide) h1), ?_⟩
                          intro r hr
                          simp only [List.mem_map] at hr
                          obtain ⟨i, -, rfl⟩ := hr
                          rfl

/-- `parse_wildcard_from_import_statement` advances, strictly shrinks, and
stamps the start line. -/
theorem parse_wildcard_from_import_statement_spec {tco : Bool} {st st' : PS}
    {recs : List Import}
    (h : parse_wildcard_from_import_statement tco st = some (st', recs)) :
    Adv st st' ∧ st'.rest.length < st.rest.length ∧
      ∀ r ∈ recs, r.line_number = st.line := by
  unfold parse_wildcard_from_import_statement at h
  split at h
  · exact absurd h (by simp)
  · rename_i st1 h1
    split at h
    · exact absurd h (by simp)
    · rename_i st2 h2
      split at h
      · exact absurd h (by simp)
      · rename_i st3 base h3
        split at h
        · exact absurd h (by simp)
        · rename_i st4 h4
          split at h
          · exact absurd h (by simp)
          · rename_i st5 h5
            split at h
            · exact absurd h (by simp)
            · rename_i st6 h6
              split at h
              · exact absurd h (by simp)
              · rename_i st7 h7
                simp only [Option.some.injEq, Prod.mk.injEq] at h
                obtain ⟨rfl, rfl⟩ := h
                have tail : Adv st1 st7 := (((((parse_space1_adv h2).trans
                  (parse_relative_module_adv h3)).trans (parse_space1_adv h4)).trans
                  (pTag_adv h5)).trans (parse_space1_adv h6)).trans (pTag_adv h7)
                refine ⟨(pTag_adv h1).trans tail,
                  lt_of_le_of_lt tail.length_le (pTag_length_lt (by decide) h1), ?_⟩
                intro r hr
                simp only [List.mem_singleton] at hr
                subst hr
                rfl

/-- The statement alternative advances, strictly shrinks, and stamps the
start line. -/
theorem parse_import_statement_any_spec {tco : Bool} {st st' : PS} {recs : List Import}
    (h : parse_import_statement_any tco st = some (st', recs)) :
    Adv st st' ∧ st'.rest.length < st.rest.length ∧
      ∀ r ∈ recs, r.line_number = st.line := by
  unfold parse_import_statement_any at h
  split at h
  · rename_i h1
    cases h
    exact parse_import_statement_spec h1
  · split at h
    · rename_i h1
      cases h
      exact parse_from_import_statement_spec h1
    · split at h
      · rename_i h1
        cases h
        exact parse_multiline_from_import_statement_spec h1
      · exact parse_wildcard_from_import_statement_spec h

theorem optLineEndingState_adv (st : PS) : Adv st (optLineEndingState st) := by
  unfold optLineEndingState
  split
  · rename_i s h
    exact pLineEnding_adv h
  · exact Adv.refl st

/-! ## Line-number ordering of emitted records -/





theorem recsSorted_of_const {l : List Import} {c : Nat}
    (h : ∀ r ∈ l, r.line_number = c) : recsSorted l := by
  induction l with
  | nil => exact List.Pairwise.nil
  | cons a t ih =>
    refine List.Pairwise.cons ?_ (ih fun r hr => h r (List.mem_cons_of_mem a hr))
    intro b hb
    rw [h a (List.mem_cons_self a t), h b (List.mem_cons_of_mem a hb)]

theorem recsWithin_mono {lo hi lo' hi' : Nat} {l : List Import}
    (h : recsWithin lo hi l) (h1 : lo' ≤ lo) (h2 : hi ≤ hi') : recsWithin lo' hi' l := by
  intro r hr
  obtain ⟨a, b⟩ := h r hr
  exact ⟨le_trans h1 a, le_trans b h2⟩

theorem recsWithin_append {lo hi : Nat} {l1 l2 : List Import}
    (h1 : recsWithin lo hi l1) (h2 : recsWithin lo hi l2) :
    recsWithin lo hi (l1 ++ l2) := by
  intro r hr
  rcases List.mem_append.mp hr with h | h
  · exact h1 r h
  · exact h2 r h

theorem recsSorted_append {l1 l2 : List Import} {m : Nat}
    (h1 : recsSorted l1) (h2 : recsSorted l2)
    (hb1 : ∀ r ∈ l1, r.line_number ≤ m) (hb2 : ∀ r ∈ l2, m ≤ r.line_number) :
    recsSorted (l1 ++ l2) := by
  rw [recsSorted, List.pairwise_append]
  exact ⟨h1, h2, fun a ha b hb => le_trans (hb1 a ha) (hb2 b hb)⟩

/-- Generic flattening lemma for `many0F` when every iteration advances the
state and emits sorted records within its own line span. -/
theorem many0F_flat_spec {p : PS → Option (PS × List Import)}
    (hp : ∀ s s' recs, p s = some (s', recs) →
      Adv s s' ∧ recsSorted recs ∧ recsWithin s.line s'.line recs) :
    ∀ {f : Nat} {st st' : PS} {ls : List (List Import)},
    many0F p f st = some (st', ls) →
    Adv st st' ∧ recsSorted ls.flatten ∧ recsWithin st.line st'.line ls.flatten := by
  intro f
  induction f with
  | zero => intro st st' ls h; exact absurd h (by simp [many0F])
  | succ n ih =>
    intro st st' ls h
    unfold many0F at h
    split at h
    · cases h
      exact ⟨Adv.refl st, List.Pairwise.nil, by intro r hr; simp at hr⟩
    · rename_i st1 a h1
      split at h
      · split at h
        · exact absurd h (by simp)
        · rename_i st2 l2 h2
          cases h
          obtain ⟨adv1, sort1, win1⟩ := hp _ _ _ h1
          obtain ⟨adv2, sort2, win2⟩ := ih h2
          rw [List.flatten_cons]
          refine ⟨adv1.trans adv2, ?_, ?_⟩
          · exact recsSorted_append sort1 sort2
              (fun r hr => (win1 r hr).2) (fun r hr => (win2 r hr).1)
          · exact recsWithin_append
              (recsWithin_mono win1 (le_refl _) adv2.line_le)
              (recsWithin_mono win2 adv1.line_le (le_refl _))
      · exact absurd h (by simp)

/-- Generic flattening lemma for `sepListLoop` under the same hypotheses. -/
theorem sepListLoop_flat_spec {sep : PS → Option PS} {p : PS → Option (PS × List Import)}
    (hsep : ∀ s s', sep s = some s' → Adv s s')
    (hp : ∀ s s' recs, p s = some (s', recs) →
      Adv s s' ∧ recsSorted recs ∧ recsWithin s.line s'.line recs) :
    ∀ {f : Nat} {st st' : PS} {ls : List (List Import)},
    sepListLoop sep p f st = some (st', ls) →
    Adv st st' ∧ recsSorted ls.flatten ∧ recsWithin st.line st'.line ls.flatten := by
  intro f
  induction f with
  | zero => intro st st' ls h; exact absurd h (by simp [sepListLoop])
  | succ n ih =>
    intro st st' ls h
    unfold sepListLoop at h
    split at h
    · cases h
      exact ⟨Adv.refl st, List.Pairwise.nil, by intro r hr; simp at hr⟩
    · rename_i st1 h1
      split at h
      · exact absurd h (by simp)
      · split at h
        · cases h
          exact ⟨Adv.refl st, List.Pairwise.nil, by intro r hr; simp at hr⟩
        · rename_i st2 a h2
          split at h
          · split at h
            · exact absurd h (by simp)
            · rename_i st3 l3 h3
              cases h
              obtain ⟨adv2, sort2, win2⟩ := hp _ _ _ h2
              obtain ⟨adv3, sort3, win3⟩ := ih h3
              have adv1 := hsep _ _ h1
              rw [List.flatten_cons]
              refine ⟨(adv1.trans adv2).trans adv3, ?_, ?_⟩
              · exact recsSorted_append sort2 sort3
                  (fun r hr => (win2 r hr).2) (fun r hr => (win3 r hr).1)
              · refine recsWithin_append ?_ ?_
                · exact recsWithin_mono win2 adv1.line_le adv3.line_le
                · exact recsWithin_mono win3 ((adv1.trans adv2).line_le) (le_refl _)
          · exact absurd h (by simp)

/-- Generic flattening lemma for `sepList1F`. -/
theorem sepList1F_flat_spec {sep : PS → Option PS} {p : PS → Option (PS × List Import)}
    (hsep : ∀ s s', sep s = some s' → Adv s s')
    (hp : ∀ s s' recs, p s = some (s', recs) →
      Adv s s' ∧ recsSorted recs ∧ recsWithin s.line s'.line recs)
    {f : Nat} {st st' : PS} {ls : List (List Import)}
    (h : sepList1F sep p f st = some (st', ls)) :
    Adv st st' ∧ recsSorted ls.flatten ∧ recsWithin st.line st'.line ls.flatten := by
  unfold sepList1F at h
  split at h
  · exact absurd h (by simp)
  · rename_i st1 a h1
    split at h
    · exact absurd h (by simp)
    · rename_i st2 l2 h2
      cases h
      obtain ⟨adv1, sort1, win1⟩ := hp _ _ _ h1
      obtain ⟨adv2, sort2, win2⟩ := sepListLoop_flat_spec hsep hp h2
      rw [List.flatten_cons]
      refine ⟨adv1.trans adv2, ?_, ?_⟩
      · exact recsSorted_append sort1 sort2
          (fun r hr => (win1 r hr).2) (fun r hr => (win2 r hr).1)
      · exact recsWithin_append
          (recsWithin_mono win1 (le_refl _) adv2.line_le)
          (recsWithin_mono win2 adv1.line_le (le_refl _))

/-- A `sepList1F` whose element parser strictly shrinks also strictly
shrinks (its first element does). -/
theorem sepList1F_length_lt {α : Type} {sep : PS → Option PS}
    {p : PS → Option (PS × α)}
    (hsep : ∀ s s', sep s = some s' → Adv s s')
    (hp : ∀ s s' a, p s = some (s', a) → Adv s s')
    (hps : ∀ s s' a, p s = some (s', a) → s'.rest.length < s.rest.length)
    {f : Nat} {st st' : PS} {l : List α} (h : sepList1F sep p f st = some (st', l)) :
    st'.rest.length < st.rest.length := by
  unfold sepList1F at h
  split at h
  · exact absurd h (by simp)
  · rename_i st1 a h1
    split at h
    · exact absurd h (by simp)
    · rename_i st2 l2 h2
      cases h
      exact lt_of_le_of_lt (sepListLoop_adv hsep hp h2).length_le (hps _ _ _ h1)

/-- The statement alternative satisfies the sorted/within hypothesis. -/
theorem parse_import_statement_any_flat :
    ∀ s s' recs, parse_import_statement_any tco s = some (s', recs) →
    Adv s s' ∧ recsSorted recs ∧ recsWithin s.line s'.line recs := by
  intro s s' recs h
  obtain ⟨hadv, -, hline⟩ := parse_import_statement_any_spec h
  exact ⟨hadv, recsSorted_of_const hline,
    fun r hr => ⟨le_of_eq (hline r hr).symm, le_trans (le_of_eq (hline r hr)) hadv.line_le⟩⟩

/-- `parse_import_statement_list`: the state advances and strictly shrinks,
records are sorted by line number, and every record's line lies between the
chain's start and end lines. -/
theorem parse_import_statement_list_spec {tco : Bool} {st st' : PS} {recs : List Import}
    (h : parse_import_statement_list tco st = some (st', recs)) :
    Adv st st' ∧ st'.rest.length < st.rest.length ∧
      recsSorted recs ∧ recsWithin st.line st'.line recs := by
  unfold parse_import_statement_list at h
  split at h
  · exact absurd h (by simp)
  · rename_i st1 imps h1
    simp only [Option.some.injEq, Prod.mk.injEq] at h
    obtain ⟨rfl, rfl⟩ := h
    obtain ⟨adv1, sort1, win1⟩ :=
      sepList1F_flat_spec (fun _ _ hs => sepSemi_adv hs)
        parse_import_statement_any_flat h1
    have lt1 := sepList1F_length_lt (fun _ _ hs => sepSemi_adv hs)
      (fun s s' a ha => (parse_import_statement_any_spec ha).1)
      (fun s s' a ha => (parse_import_statement_any_spec ha).2.1) h1
    have adv2 : Adv st1 (optTagState [';'] (parse_space0 st1)) :=
      (parse_space0_adv st1).trans (optTagState_adv [';'] (parse_space0 st1))
    exact ⟨adv1.trans adv2, lt_of_le_of_lt adv2.length_le lt1, sort1,
      recsWithin_mono win1 (le_refl _) adv2.line_le⟩

theorem consumedBetween_adv (st : PS) (k : Nat) :
    consumedBetween st (st.adv k) = st.rest.take k := by
  unfold consumedBetween
  rw [adv_rest, List.length_drop]
  by_cases h : k ≤ st.rest.length
  · have : st.rest.length - (st.rest.length - k) = k := by omega
    rw [this]
  · have h1 : st.rest.length - (st.rest.length - k) = st.rest.length := by omega
    rw [h1, List.take_length, List.take_of_length_le (by omega)]

theorem adv_line_eq (st : PS) (k : Nat) :
    (st.adv k).line = st.line + countNL (st.rest.take k) := rfl

theorem blankLine_adv {st st' : PS} {u : Unit} (h : blankLine st = some (st', u)) :
    Adv st st' := by
  unfold blankLine at h
  split at h
  · exact absurd h (by simp)
  · rename_i s1 h1
    cases h
    exact (plainSpace0_adv st).trans (pLineEnding_adv h1)

theorem indentedLine_adv {indent : List Char} {st st' : PS} {u : Unit}
    (h : indentedLine indent st = some (st', u)) : Adv st st' := by
  unfold indentedLine at h
  split at h
  · rename_i r h1
    cases h
    exact blankLine_adv h1
  · split at h
    · exact absurd h (by simp)
    · rename_i sA hA
      split at h
      · exact absurd h (by simp)
      · rename_i sB v hB
        cases h
        exact ((pTag_adv hA).trans (pNotLineEnding_adv hB)).trans
          (optLineEndingState_adv sB)

/-- `parse_indented_block` returns a continuation state reached by dropping
exactly the returned block. -/
theorem parse_indented_block_spec {st st' : PS} {blk : List Char}
    (h : parse_indented_block st = some (st', blk)) :
    ∃ k, st' = st.adv k ∧ blk = st.rest.take k := by
  unfold parse_indented_block at h
  split at h
  · exact absurd h (by simp)
  · rename_i st1 l1 h1
    split at h
    · exact absurd h (by simp)
    · rename_i st2 indent h2
      split at h
      · exact absurd h (by simp)
      · rename_i st3 v3 h3
        split at h
        · exact absurd h (by simp)
        · rename_i st5 l5 h5
          simp only [Option.some.injEq, Prod.mk.injEq] at h
          obtain ⟨rfl, rfl⟩ := h
          have a1 := many0F_adv (fun s s' a ha => blankLine_adv ha) h1
          have a2 := a1.trans (plainSpace1_adv h2)
          have a3 := a2.trans (pNotLineEnding_adv h3)
          have a4 := a3.trans (optLineEndingState_adv st3)
          have a5 := a4.trans
            (many0F_adv (fun s s' a ha => indentedLine_adv ha) h5)
          obtain ⟨k, hk⟩ := a5
          exact ⟨k, hk, by rw [hk, consumedBetween_adv]⟩

/-- `parse_if_typechecking` advances the state, strictly shrinks, and emits
sorted records whose lines lie inside the construct's line span, provided the
recursive block parser advances/sorts likewise. -/
theorem parse_if_typechecking_gen_spec {recBlock : PS → Option (PS × List Import)}
    (hrec : ∀ s s' recs, recBlock s = some (s', recs) →
      Adv s s' ∧ recsSorted recs ∧ recsWithin s.line s'.line recs)
    {st st' : PS} {recs : List Import}
    (h : parse_if_typechecking_gen recBlock st = some (st', recs)) :
    Adv st st' ∧ st'.rest.length < st.rest.length ∧
      recsSorted recs ∧ recsWithin st.line st'.line recs := by
  unfold parse_if_typechecking_gen at h
  split at h
  · exact absurd h (by simp)
  · rename_i st1 h1
    split at h
    · exact absurd h (by simp)
    · rename_i st2 h2
      split at h
      · exact absurd h (by simp)
      · rename_i st3 h3
        have adv3 : Adv st1 st3 := by
          have a1 := parse_space1_adv h2
          split at h3
          · rename_i hTag
            cases h3
            exact a1.trans (pTag_adv hTag)
          · exact a1.trans (pTag_adv h3)
        split at h
        · exact absurd h (by simp)
        · rename_i st5 h5
          have adv5 : Adv st1 st5 :=
            (adv3.trans (parse_space0_adv st3)).trans (pTag_adv h5)
          split at h
          · -- single-line form
            rename_i r hInline
            cases h
            split at hInline
            · exact absurd hInline (by simp)
            · rename_i st7 imps h7
              simp only [Option.some.injEq, Prod.mk.injEq] at hInline
              obtain ⟨rfl, rfl⟩ := hInline
              obtain ⟨advL, -, sortL, winL⟩ := parse_import_statement_list_spec h7
              have advPre : Adv st5 (parse_space0 st5) := parse_space0_adv st5
              have advPost : Adv st7 (optCommentState (parse_space0 st7)) :=
                (parse_space0_adv st7).trans (optCommentState_adv (parse_space0 st7))
              have tail : Adv st1 _ := ((adv5.trans advPre).trans advL).trans advPost
              refine ⟨(pTag_adv h1).trans tail,
                lt_of_le_of_lt tail.length_le (pTag_length_lt (by decide) h1),
                sortL, ?_⟩
              have lo : st.line ≤ (parse_space0 st5).line :=
                ((pTag_adv h1).trans (adv5.trans advPre)).line_le
              exact recsWithin_mono winL lo advPost.line_le
          · -- block form
            split at h
            · exact absurd h (by simp)
            · rename_i stC hC
              split at h
              · exact absurd h (by simp)
              · rename_i stD blk hD
                split at h
                · exact absurd h (by simp)
                · rename_i stE imps hE
                  split at h
                  · cases h
                    have advC : Adv st1 stC :=
                      (adv5.trans ((parse_space0_adv st5).trans
                        (optCommentState_adv (parse_space0 st5)))).trans
                        (pLineEnding_adv hC)
                    obtain ⟨k, hk, hblk⟩ := parse_indented_block_spec hD
                    obtain ⟨advE, sortE, winE⟩ := hrec _ _ _ hE
                    have hDline : st'.line = stC.line + countNL blk := by
                      rw [hk, adv_line_eq, ← hblk]
                    have hEline : stE.line ≤ stC.line + countNL blk := by
                      obtain ⟨j, hj⟩ := advE
                      rw [hj, adv_line_eq]
                      have := countNL_take_le blk j
                      simp only
                      omega
                    have tail : Adv st1 st' := advC.trans ⟨k, hk⟩
                    refine ⟨(pTag_adv h1).trans tail,
                      lt_of_le_of_lt tail.length_le
                        (pTag_length_lt (by decide) h1), sortE, ?_⟩
                    intro r hr
                    obtain ⟨a, b⟩ := winE r hr
                    exact ⟨le_trans ((pTag_adv h1).trans advC).line_le a, by omega⟩
                  · exact absurd h (by simp)

/-- Every successful round of the block driver advances the state, consumes at
least one character, and emits sorted records within its line span (given the
same for the recursive block parser). -/
theorem block_step_gen_spec {recBlock : PS → Option (PS × List Import)}
    (hrec : ∀ s s' recs, recBlock s = some (s', recs) →
      Adv s s' ∧ recsSorted recs ∧ recsWithin s.line s'.line recs)
    {tco : Bool} {st st' : PS} {recs : List Import}
    (h : block_step_gen recBlock tco st = some (st', recs)) :
    Adv st st' ∧ st'.rest.length < st.rest.length ∧
      recsSorted recs ∧ recsWithin st.line st'.line recs := by
  unfold block_step_gen at h
  split at h
  · rename_i r h1
    cases h
    exact parse_if_typechecking_gen_spec hrec h1
  · split at h
    · rename_i s1 h1
      cases h
      exact ⟨parse_space1_adv h1, parse_space1_length_lt h1, List.Pairwise.nil,
        by intro r hr; simp at hr⟩
    · split at h
      · rename_i s1 h1
        cases h
        exact ⟨pLineEnding_adv h1, pLineEnding_length_lt h1, List.Pairwise.nil,
          by intro r hr; simp at hr⟩
      · split at h
        · rename_i s1 h1
          cases h
          exact ⟨parse_multiline_comment_adv h1, parse_multiline_comment_length_lt h1,
            List.Pairwise.nil, by intro r hr; simp at hr⟩
        · split at h
          · rename_i s1 h1
            cases h
            exact ⟨parse_comment_adv h1, parse_comment_length_lt h1,
              List.Pairwise.nil, by intro r hr; simp at hr⟩
          · split at h
            · rename_i r h1
              cases h
              obtain ⟨a, b, c, d⟩ := parse_import_statement_list_spec h1
              exact ⟨a, b, c, d⟩
            · split at h
              · exact absurd h (by simp)
              · rename_i s1 v h1
                split at h
                · exact absurd h (by simp)
                · rename_i hv
                  cases h
                  exact ⟨pNotLineEnding_adv h1,
                    pNotLineEnding_length_lt_of_ne h1 (by simpa using hv),
                    List.Pairwise.nil, by intro r hr; simp at hr⟩

/-- `parse_block` advances the state and emits records sorted by line number
within the span it consumes. -/
theorem parse_block_spec : ∀ {fuel : Nat} {tco : Bool} {st st' : PS}
    {recs : List Import}, parse_block fuel tco st = some (st', recs) →
    Adv st st' ∧ recsSorted recs ∧ recsWithin st.line st'.line recs := by
  intro fuel
  induction fuel with
  | zero => intro tco st st' recs h; exact absurd h (by simp [parse_block])
  | succ n ih =>
    intro tco st st' recs h
    unfold parse_block at h
    split at h
    · exact absurd h (by simp)
    · rename_i stf ls hf
      simp only [Option.some.injEq, Prod.mk.injEq] at h
      obtain ⟨rfl, rfl⟩ := h
      exact many0F_flat_spec
        (fun s s' rs hs =>
          (block_step_gen_spec (fun a b c hc => ih hc) hs).elim
            (fun x y => ⟨x, y.2.1, y.2.2⟩)) hf

/-! ## Totality and progress of the block driver -/

/-- `many0F` cannot run out of fuel when every iteration strictly shrinks the
input: with fuel above the input length it always returns. -/
theorem many0F_total {α : Type} {p : PS → Option (PS × α)}
    (hp : ∀ s s' a, p s = some (s', a) → s'.rest.length < s.rest.length) :
    ∀ {f : Nat} {st : PS}, st.rest.length + 1 ≤ f →
    ∃ st' l, many0F p f st = some (st', l) := by
  intro f
  induction f with
  | zero => intro st hle; omega
  | succ n ih =>
    intro st hle
    cases h1 : p st with
    | none => exact ⟨st, [], by simp [many0F, h1]⟩
    | some r =>
      obtain ⟨st1, a⟩ := r
      have hlt := hp _ _ _ h1
      have hb : st1.rest.length + 1 ≤ n := by omega
      obtain ⟨st2, l2, h2⟩ := ih hb
      exact ⟨st2, a :: l2, by simp [many0F, h1, hlt, h2]⟩

/-- The block driver loop itself never reports an error: `parse_block` always
returns a state and a record list (for any positive nesting fuel). -/
theorem parse_block_total : ∀ {fuel : Nat}, 1 ≤ fuel → ∀ (tco : Bool) (st : PS),
    ∃ st' recs, parse_block fuel tco st = some (st', recs) := by
  intro fuel hfuel tco st
  cases fuel with
  | zero => omega
  | succ n =>
    have hb : st.rest.length + 1 ≤ st.rest.length + 1 := by omega
    obtain ⟨st', l, h⟩ := many0F_total
      (p := block_step_gen (fun s => parse_block n true s) tco)
      (fun s s' a ha =>
        (block_step_gen_spec (fun x y z hz =>
          (parse_block_spec hz)) ha).2.1)
      (f := st.rest.length + 1) hb
    exact ⟨st', l.flatten, by rw [parse_block, h]⟩

/-- On an empty remainder every driver alternative fails, so the driver
exits. -/
theorem block_step_gen_none_of_empty {recBlock : PS → Option (PS × List Import)}
    {tco : Bool} {st : PS} (h : st.rest = []) :
    block_step_gen recBlock tco st = none := by
  obtain ⟨r, l⟩ := st
  simp only at h
  subst h
  rfl

/-- Progress: at a non-empty remainder whose carriage returns are all followed
by line feeds, some driver alternative succeeds. -/
theorem block_step_gen_progress {recBlock : PS → Option (PS × List Import)}
    {tco : Bool} {st : PS} (hne : st.rest ≠ []) (hcr : noLoneCR st.rest = true) :
    ∃ st' recs, block_step_gen recBlock tco st = some (st', recs) := by
  unfold block_step_gen
  cases hI : parse_if_typechecking_gen recBlock st with
  | some r => exact ⟨r.1, r.2, rfl⟩
  | none =>
    cases hS : parse_space1 st with
    | some s1 => exact ⟨s1, [], rfl⟩
    | none =>
      cases hLE : pLineEnding st with
      | some s1 => exact ⟨s1, [], rfl⟩
      | none =>
        cases hML : parse_multiline_comment st with
        | some s1 => exact ⟨s1, [], rfl⟩
        | none =>
          cases hC : parse_comment st with
          | some s1 => exact ⟨s1, [], rfl⟩
          | none =>
            cases hL : parse_import_statement_list tco st with
            | some r => exact ⟨r.1, r.2, rfl⟩
            | none =>
              -- rule 7 must fire
              have hsome := nleLen_isSome_of_noLoneCR st.rest hcr
              obtain ⟨k, hk⟩ := Option.isSome_iff_exists.mp hsome
              have hkne : k ≠ 0 := by
                intro hk0
                subst hk0
                rcases nleLen_zero_cases hk with h0 | ⟨t, h0⟩ | ⟨t, h0⟩
                · exact hne h0
                · rw [show pLineEnding st = some (st.adv 1) from ?_] at hLE
                  · exact absurd hLE (by simp)
                  · unfold pLineEnding
                    rw [h0]
                    rfl
                · rw [show pLineEnding st = some (st.adv 2) from ?_] at hLE
                  · exact absurd hLE (by simp)
                  · unfold pLineEnding
                    rw [h0]
                    rfl
              have hNLE : pNotLineEnding st = some (st.adv k, st.rest.take k) := by
                unfold pNotLineEnding
                rw [hk]
              refine ⟨st.adv k, [], ?_⟩
              rw [hNLE]
              have hvne : st.rest.take k ≠ [] := by
                rw [Ne, List.take_eq_nil_iff]
                push_neg
                exact ⟨hkne, hne⟩
              simp [List.isEmpty_iff, hvne]

/-- With fuel above the remaining length, the driver loop over the block step
consumes the whole remainder whenever the input has no lone carriage return. -/
theorem many0F_blockstep_all {recBlock : PS → Option (PS × List Import)}
    (hrec : ∀ s s' recs, recBlock s = some (s', recs) →
      Adv s s' ∧ recsSorted recs ∧ recsWithin s.line s'.line recs) {tco : Bool} :
    ∀ {f : Nat} {st : PS}, noLoneCR st.rest = true → st.rest.length + 1 ≤ f →
    ∃ st' ls, many0F (block_step_gen recBlock tco) f st = some (st', ls) ∧
      st'.rest = [] := by
  intro f
  induction f with
  | zero => intro st hcr hle; omega
  | succ n ih =>
    intro st hcr hle
    by_cases hne : st.rest = []
    · refine ⟨st, [], ?_, hne⟩
      unfold many0F
      rw [block_step_gen_none_of_empty hne]
    · obtain ⟨st1, recs1, h1⟩ := @block_step_gen_progress recBlock tco st hne hcr
      obtain ⟨advS, hlt, -, -⟩ := block_step_gen_spec hrec h1
      have hcr1 : noLoneCR st1.rest = true := by
        obtain ⟨k, rfl⟩ := advS
        exact noLoneCR_drop st.rest k hcr
      have hb : st1.rest.length + 1 ≤ n := by omega
      obtain ⟨st2, ls2, h2, hend⟩ := ih hcr1 hb
      exact ⟨st2, recs1 :: ls2, by simp [many0F, h1, hlt, h2], hend⟩

/-- `parse_block` consumes its entire input whenever the input has no lone
carriage return. -/
theorem parse_block_all : ∀ {fuel : Nat}, 1 ≤ fuel → ∀ (tco : Bool) (st : PS),
    noLoneCR st.rest = true →
    ∃ st' recs, parse_block fuel tco st = some (st', recs) ∧ st'.rest = [] := by
  intro fuel hf tco st hcr
  cases fuel with
  | zero => omega
  | succ n =>
    obtain ⟨st', ls, h, hend⟩ := @many0F_blockstep_all
      (fun s => parse_block n true s)
      (fun a b c hc => parse_block_spec hc) tco
      (st.rest.length + 1) st hcr (by omega)
    exact ⟨st', ls.flatten, by rw [parse_block, h], hend⟩

/-- `parse_imports` succeeds whenever every carriage return in the input is
immediately followed by a line feed. -/
theorem parse_imports_total_of_noLoneCR {s : List Char} (hcr : noLoneCR s = true) :
    ∃ recs, parse_imports s = some recs := by
  obtain ⟨st', recs, h, hend⟩ := @parse_block_all (s.length + 1)
    (by omega) false ⟨s, 1⟩ hcr
  exact ⟨recs, by simp [parse_imports, h, List.isEmpty_iff, hend]⟩

/-! ## Symbolic evaluation lemmas

Evaluation lemmas for parsers applied to states whose remaining input has a
known `prefix ++ rest` shape but a symbolic line number.  These drive the
proofs about whole families of inputs (comments, rendered import programs). -/



theorem countNL_eq_zero_of_noCRLF {l : List Char} (h : noCRLF l = true) :
    countNL l = 0 := by
  rw [countNL, List.count_eq_zero]
  intro hmem
  rw [noCRLF, List.all_eq_true] at h
  have := h '\n' hmem
  simp at this

theorem noCRLF_of_ident {l : List Char} (h : ∀ c ∈ l, identChar c = true) :
    noCRLF l = true := by
  rw [noCRLF, List.all_eq_true]
  intro c hc
  have := h c hc
  by_cases h1 : c = '\n'
  · subst h1; simp [identChar] at this
  · by_cases h2 : c = '\r'
    · subst h2; simp [identChar] at this
    · simp [h1, h2]

theorem nleLen_append_of_noCRLF {w : List Char} (h : noCRLF w = true) (z : List Char) :
    nleLen (w ++ '\n' :: z) = some w.length := by
  induction w with
  | nil => simp [nleLen]
  | cons c t ih =>
    rw [noCRLF, List.all_eq_true] at h
    have hc := h c (List.mem_cons_self c t)
    have hn : c ≠ '\n' := by intro hx; subst hx; simp at hc
    have hr : c ≠ '\r' := by intro hx; subst hx; simp at hc
    rw [List.cons_append, nleLen_cons_other hn hr,
      ih (by rw [noCRLF, List.all_eq_true]; intro a ha; exact h a (List.mem_cons_of_mem c ha))]
    simp

theorem nleLen_of_noCRLF {w : List Char} (h : noCRLF w = true) :
    nleLen w = some w.length := by
  induction w with
  | nil => simp [nleLen]
  | cons c t ih =>
    rw [noCRLF, List.all_eq_true] at h
    have hc := h c (List.mem_cons_self c t)
    have hn : c ≠ '\n' := by intro hx; subst hx; simp at hc
    have hr : c ≠ '\r' := by intro hx; subst hx; simp at hc
    rw [nleLen_cons_other hn hr,
      ih (by rw [noCRLF, List.all_eq_true]; intro a ha; exact h a (List.mem_cons_of_mem c ha))]
    simp

/-- Evaluate a tag against input that literally starts with it. -/
theorem pTag_append (t rest : List Char) (l : Nat) :
    pTag t ⟨t ++ rest, l⟩ = some ⟨rest, l + countNL t⟩ := by
  unfold pTag
  rw [if_pos]
  · unfold PS.adv
    simp only
    rw [List.drop_left, List.take_left]
  · rw [List.isPrefixOf_iff_prefix]
    exact List.prefix_append t rest

/-- A tag fails when the heads differ. -/
theorem pTag_cons_ne {c d : Char} {ts rest : List Char} {l : Nat} (h : c ≠ d) :
    pTag (c :: ts) ⟨d :: rest, l⟩ = none := by
  unfold pTag
  have hnp : ¬(c :: ts).isPrefixOf (d :: rest) = true := by
    rw [List.isPrefixOf_iff_prefix]
    intro hp
    obtain ⟨u, hu⟩ := hp
    rw [List.cons_append] at hu
    exact h (List.cons.inj hu).1
  rw [if_neg hnp]

theorem identLen_cons_false {c : Char} {t : List Char} (h : identChar c = false) :
    identLen (c :: t) = 0 := by
  simp [identLen, h]

theorem identLen_append {i rest : List Char} (hi : ∀ c ∈ i, identChar c = true)
    (hr : identLen rest = 0) : identLen (i ++ rest) = i.length := by
  induction i with
  | nil => simpa using hr
  | cons c t ih =>
    rw [List.cons_append, identLen]
    rw [if_pos (hi c (List.mem_cons_self c t))]
    rw [ih fun a ha => hi a (List.mem_cons_of_mem c ha)]
    simp

/-- Evaluate `parse_identifier` on input starting with a full identifier. -/
theorem parse_identifier_append {i rest : List Char} {l : Nat}
    (hi : ∀ c ∈ i, identChar c = true) (hne : i ≠ []) (hr : identLen rest = 0) :
    parse_identifier ⟨i ++ rest, l⟩ = some (⟨rest, l⟩, i) := by
  unfold parse_identifier
  simp only
  rw [identLen_append hi hr]
  rw [if_neg (by simpa using hne)]
  unfold PS.adv
  simp only
  rw [List.drop_left, List.take_left,
    countNL_eq_zero_of_noCRLF (noCRLF_of_ident hi)]
  simp

theorem spaceLen_cons_space (t : List Char) : spaceLen (' ' :: t) = spaceLen t + 1 := by
  simp [spaceLen]

theorem spaceLen_of_ident_head {c : Char} {t : List Char} (h : identChar c = true) :
    spaceLen (c :: t) = 0 := by
  have h1 : c ≠ ' ' := by intro hx; subst hx; simp [identChar] at h
  have h2 : c ≠ '\t' := by intro hx; subst hx; simp [identChar] at h
  have h3 : c ≠ '\\' := by intro hx; subst hx; simp [identChar] at h
  simp [spaceLen, h1, h2, h3]

/-- Evaluate `parse_space1` on a single space followed by non-space input. -/
theorem parse_space1_single {rest : List Char} {l : Nat} (h : spaceLen rest = 0) :
    parse_space1 ⟨' ' :: rest, l⟩ = some ⟨rest, l⟩ := by
  unfold parse_space1
  simp only
  rw [spaceLen_cons_space, h]
  rw [if_neg (by omega)]
  unfold PS.adv
  simp only
  rw [show (1 : Nat) + 0 = 1 from rfl]
  simp [countNL]

theorem plainSpaceLen_of_ident_head {c : Char} {t : List Char} (h : identChar c = true) :
    plainSpaceLen (c :: t) = 0 := by
  have h1 : c ≠ ' ' := by intro hx; subst hx; simp [identChar] at h
  have h2 : c ≠ '\t' := by intro hx; subst hx; simp [identChar] at h
  simp [plainSpaceLen, h1, h2]

/-- Evaluate `space1` on a single space followed by non-space input. -/
theorem plainSpace1_single {rest : List Char} {l : Nat} (h : plainSpaceLen rest = 0) :
    plainSpace1 ⟨' ' :: rest, l⟩ = some (⟨rest, l⟩, [' ']) := by
  unfold plainSpace1
  simp only
  rw [show plainSpaceLen (' ' :: rest) = plainSpaceLen rest + 1 by simp [plainSpaceLen], h]
  rw [if_neg (by omega)]
  unfold PS.adv
  simp [countNL]

theorem pLineEnding_cons_nl (z : List Char) (l : Nat) :
    pLineEnding ⟨'\n' :: z, l⟩ = some ⟨z, l + 1⟩ := by
  unfold pLineEnding
  simp [PS.adv, countNL]

/-- Evaluate a newline-free tag against input that starts with it. -/
theorem pTag_append_nonl {t : List Char} (rest : List Char) (l : Nat)
    (h : countNL t = 0) : pTag t ⟨t ++ rest, l⟩ = some ⟨rest, l⟩ := by
  rw [pTag_append, h]
  simp

theorem parse_space0_zero {r : List Char} {l : Nat} (h : spaceLen r = 0) :
    parse_space0 ⟨r, l⟩ = ⟨r, l⟩ := by
  unfold parse_space0
  simp only at h ⊢
  rw [h]
  exact adv_zero ⟨r, l⟩

theorem parse_space0_single {rest : List Char} {l : Nat} (h : spaceLen rest = 0) :
    parse_space0 ⟨' ' :: rest, l⟩ = ⟨rest, l⟩ := by
  unfold parse_space0
  simp only
  rw [spaceLen_cons_space, h]
  unfold PS.adv
  simp [countNL]

theorem plainSpace0_zero {r : List Char} {l : Nat} (h : plainSpaceLen r = 0) :
    plainSpace0 ⟨r, l⟩ = ⟨r, l⟩ := by
  unfold plainSpace0
  simp only at h ⊢
  rw [h]
  exact adv_zero ⟨r, l⟩

theorem plainSpace0_single {rest : List Char} {l : Nat} (h : plainSpaceLen rest = 0) :
    plainSpace0 ⟨' ' :: rest, l⟩ = ⟨rest, l⟩ := by
  unfold plainSpace0
  simp only
  rw [show plainSpaceLen (' ' :: rest) = plainSpaceLen rest + 1 by simp [plainSpaceLen], h]
  unfold PS.adv
  simp [countNL]

/-- The empty suffix stops the item/statement parsers. -/
theorem stopSuffix_nil : StopSuffix [] := by
  refine ⟨rfl, by simp, fun l => rfl, fun l => rfl, fun l => rfl, fun l => rfl,
    fun l => rfl⟩

/-- A newline stops the item/statement parsers. -/
theorem stopSuffix_nl (z : List Char) : StopSuffix ('\n' :: z) := by
  refine ⟨rfl, by simp, fun l => rfl, fun l => rfl, fun l => rfl, fun l => rfl,
    fun l => rfl⟩

/-- A space-then-comment suffix stops the item/statement parsers. -/
theorem stopSuffix_comment (w : List Char) : StopSuffix (' ' :: '#' :: w) := by
  refine ⟨rfl, by simp, fun l => rfl, fun l => rfl, fun l => rfl, fun l => rfl,
    fun l => rfl⟩

theorem consumedBetween_append (a b : List Char) (l1 l2 : Nat) :
    consumedBetween ⟨a ++ b, l1⟩ ⟨b, l2⟩ = a := by
  unfold consumedBetween
  simp only [List.length_append]
  rw [show a.length + b.length - b.length = a.length by omega, List.take_left]

theorem pDotIdent_none {rest : List Char} {l : Nat} (hd : rest.head? ≠ some '.') :
    pDotIdent ⟨rest, l⟩ = none := by
  cases rest with
  | nil => rfl
  | cons c t =>
    have hc : ('.' : Char) ≠ c := by
      intro h
      exact hd (by rw [← h]; rfl)
    unfold pDotIdent
    rw [pTag_cons_ne (Ne.symm hc).symm]

theorem renderSegs_length {segs : List (List Char)}
    (hv : ∀ s ∈ segs, validIdent s) : segs.length ≤ (renderSegs segs).length := by
  induction segs with
  | nil => simp
  | cons s t ih =>
    have hs : s ≠ [] := (hv s (List.mem_cons_self s t)).1
    have hlen : 1 ≤ s.length := by
      cases s with
      | nil => exact absurd rfl hs
      | cons a b => simp
    cases t with
    | nil => simpa using hlen
    | cons a b =>
      have := ih fun x hx => hv x (List.mem_cons_of_mem s hx)
      rw [show renderSegs (s :: a :: b) = s ++ '.' :: renderSegs (a :: b) from rfl]
      simp only [List.length_append, List.length_cons]
      simp only [List.length_cons] at this
      omega

/-- The `(tag("."), parse_identifier)` loop consumes the remaining dotted
segments when the following text cannot extend the module. -/
theorem dotIdent_loop_eval : ∀ (segs : List (List Char)), segs ≠ [] →
    (∀ s ∈ segs, validIdent s) → ∀ (rest : List Char) (l : Nat) (f : Nat),
    segs.length + 1 ≤ f → identLen rest = 0 → rest.head? ≠ some '.' →
    ∃ us, many0F pDotIdent f ⟨'.' :: (renderSegs segs ++ rest), l⟩ =
      some (⟨rest, l⟩, us) := by
  intro segs
  induction segs with
  | nil => intro h; exact absurd rfl h
  | cons s t ih =>
    intro _hne hv rest l f hf hr hd
    have hvs : validIdent s := hv s (List.mem_cons_self s t)
    cases t with
    | nil =>
      -- single remaining segment
      cases f with
      | zero => simp at hf
      | succ f' =>
        cases f' with
        | zero => simp at hf
        | succ f'' =>
          have hstep : pDotIdent ⟨'.' :: (renderSegs [s] ++ rest), l⟩ =
              some (⟨rest, l⟩, ()) := by
            unfold pDotIdent
            rw [show ('.' :: (renderSegs [s] ++ rest)) =
              ['.'] ++ (renderSegs [s] ++ rest) from rfl]
            rw [pTag_append_nonl _ _ (by decide)]
            rw [show (renderSegs [s] : List Char) = s from rfl]
            simp only [parse_identifier_append hvs.2 hvs.1 hr]
          have hnone : pDotIdent ⟨rest, l⟩ = none := pDotIdent_none hd
          refine ⟨[()], ?_⟩
          simp only [many0F, hstep, hnone]
          rw [if_pos (by
            simp only [List.length_cons, List.length_append]
            omega)]
    | cons a b =>
      cases f with
      | zero => omega
      | succ f' =>
        have hstep : pDotIdent ⟨'.' :: (renderSegs (s :: a :: b) ++ rest), l⟩ =
            some (⟨'.' :: (renderSegs (a :: b) ++ rest), l⟩, ()) := by
          unfold pDotIdent
          rw [show ('.' :: (renderSegs (s :: a :: b) ++ rest)) =
            ['.'] ++ (s ++ ('.' :: (renderSegs (a :: b) ++ rest))) by
              rw [show renderSegs (s :: a :: b) =
                s ++ '.' :: renderSegs (a :: b) from rfl]
              simp]
          rw [pTag_append_nonl _ _ (by decide)]
          have hil : identLen ('.' :: (renderSegs (a :: b) ++ rest)) = 0 :=
            identLen_cons_false (by decide)
          simp only [parse_identifier_append hvs.2 hvs.1 hil]
        obtain ⟨us, hrec⟩ := ih (by simp)
          (fun x hx => hv x (List.mem_cons_of_mem s hx)) rest l f'
          (by simp at hf ⊢; omega) hr hd
        refine ⟨() :: us, ?_⟩
        simp only [many0F, hstep]
        have hs1 : 1 ≤ s.length := by
          cases s with
          | nil => exact absurd rfl hvs.1
          | cons c cs => simp
        rw [if_pos (by
          rw [show renderSegs (s :: a :: b) = s ++ '.' :: renderSegs (a :: b)
            from rfl]
          simp only [List.length_cons, List.length_append]
          omega)]
        simp only [hrec]

/-- `parse_module` consumes exactly a rendered dotted module. -/
theorem parse_module_eval {segs : List (List Char)} (hne : segs ≠ [])
    (hv : ∀ s ∈ segs, validIdent s) {rest : List Char} {l : Nat}
    (hr : identLen rest = 0) (hd : rest.head? ≠ some '.') :
    parse_module ⟨renderSegs segs ++ rest, l⟩ = some (⟨rest, l⟩, renderSegs segs) := by
  cases segs with
  | nil => exact absurd rfl hne
  | cons s t =>
    have hvs : validIdent s := hv s (List.mem_cons_self s t)
    cases t with
    | nil =>
      have hm : many0F pDotIdent (rest.length + 1) ⟨rest, l⟩ =
          some (⟨rest, l⟩, []) := by
        simp only [many0F, pDotIdent_none hd]
      unfold parse_module
      rw [show (renderSegs [s] : List Char) = s from rfl]
      simp only [parse_identifier_append hvs.2 hvs.1 hr, hm,
        consumedBetween_append]
    | cons a b =>
      have hlen : (a :: b).length ≤ (renderSegs (a :: b)).length :=
        renderSegs_length fun x hx => hv x (List.mem_cons_of_mem s hx)
      obtain ⟨us, hloop⟩ := dotIdent_loop_eval (a :: b) (by simp)
        (fun x hx => hv x (List.mem_cons_of_mem s hx)) rest l
        (('.' :: (renderSegs (a :: b) ++ rest)).length + 1)
        (by
          simp only [List.length_cons, List.length_append]
          simp only [List.length_cons] at hlen
          omega) hr hd
      unfold parse_module
      rw [show renderSegs (s :: a :: b) ++ rest =
        s ++ ('.' :: (renderSegs (a :: b) ++ rest)) by
          rw [show renderSegs (s :: a :: b) = s ++ '.' :: renderSegs (a :: b)
            from rfl]
          simp]
      have hil : identLen ('.' :: (renderSegs (a :: b) ++ rest)) = 0 :=
        identLen_cons_false (by decide)
      simp only [parse_identifier_append hvs.2 hvs.1 hil, hloop]
      rw [show s ++ ('.' :: (renderSegs (a :: b) ++ rest)) =
        (s ++ '.' :: renderSegs (a :: b)) ++ rest by simp]
      rw [consumedBetween_append]
      rw [show (renderSegs (s :: a :: b) : List Char) =
        s ++ '.' :: renderSegs (a :: b) from rfl]

/-- A rendered item starts with an identifier character. -/
theorem renderItem_head {it : SItem} (hit : validItem it) (X : List Char) :
    ∃ c cs, renderItem it ++ X = c :: cs ∧ identChar c = true := by
  obtain ⟨hne, hv, -⟩ := hit
  cases hsegs : it.segs with
  | nil => exact absurd hsegs hne
  | cons s t =>
    have hvs : validIdent s := by
      apply hv
      rw [hsegs]
      exact List.mem_cons_self s t
    cases hs : s with
    | nil => exact absurd hs hvs.1
    | cons c cs =>
      have hc : identChar c = true := by
        apply hvs.2
        rw [hs]
        exact List.mem_cons_self c cs
      refine ⟨c, ?_, ?_, hc⟩
      · exact (renderItem it ++ X).tail
      · rw [renderItem, hsegs]
        cases t with
        | nil =>
          rw [show renderSegs [s] = s from rfl, hs]
          simp
        | cons a b =>
          rw [show renderSegs (s :: a :: b) = s ++ '.' :: renderSegs (a :: b)
            from rfl, hs]
          simp

theorem spaceLen_renderItem {it : SItem} (hit : validItem it) (X : List Char) :
    spaceLen (renderItem it ++ X) = 0 := by
  obtain ⟨c, cs, heq, hc⟩ := renderItem_head hit X
  rw [heq]
  exact spaceLen_of_ident_head hc

theorem plainSpaceLen_renderItem {it : SItem} (hit : validItem it) (X : List Char) :
    plainSpaceLen (renderItem it ++ X) = 0 := by
  obtain ⟨c, cs, heq, hc⟩ := renderItem_head hit X
  rw [heq]
  exact plainSpaceLen_of_ident_head hc

theorem spaceLen_ident_append {a : List Char} (ha : validIdent a) (tail : List Char) :
    spaceLen (a ++ tail) = 0 := by
  cases hs : a with
  | nil => exact absurd hs ha.1
  | cons c cs =>
    have hc : identChar c = true := by
      apply ha.2
      rw [hs]
      exact List.mem_cons_self c cs
    rw [List.cons_append]
    exact spaceLen_of_ident_head hc

theorem plainSpaceLen_ident_append {a : List Char} (ha : validIdent a)
    (tail : List Char) : plainSpaceLen (a ++ tail) = 0 := by
  cases hs : a with
  | nil => exact absurd hs ha.1
  | cons c cs =>
    have hc : identChar c = true := by
      apply ha.2
      rw [hs]
      exact List.mem_cons_self c cs
    rw [List.cons_append]
    exact plainSpaceLen_of_ident_head hc

/-- `optAsAlias` consumes a rendered ` as alias` group. -/
theorem optAsAlias_alias {a tail : List Char} {l : Nat} (ha : validIdent a)
    (ht : identLen tail = 0) :
    optAsAlias ⟨' ' :: 'a' :: 's' :: ' ' :: (a ++ tail), l⟩ = ⟨tail, l⟩ := by
  have e1 : parse_space1 ⟨' ' :: (['a', 's'] ++ (' ' :: (a ++ tail))), l⟩ =
      some ⟨['a', 's'] ++ (' ' :: (a ++ tail)), l⟩ := parse_space1_single rfl
  have e2 : pTag ['a', 's'] ⟨['a', 's'] ++ (' ' :: (a ++ tail)), l⟩ =
      some ⟨' ' :: (a ++ tail), l⟩ := pTag_append_nonl _ _ (by decide)
  have e3 : parse_space1 ⟨' ' :: (a ++ tail), l⟩ = some ⟨a ++ tail, l⟩ :=
    parse_space1_single (spaceLen_ident_append ha tail)
  have e4 : parse_identifier ⟨a ++ tail, l⟩ = some (⟨tail, l⟩, a) :=
    parse_identifier_append ha.2 ha.1 ht
  unfold optAsAlias
  rw [show (' ' :: 'a' :: 's' :: ' ' :: (a ++ tail)) =
    ' ' :: (['a', 's'] ++ (' ' :: (a ++ tail))) from rfl]
  simp only [e1, e2, e3, e4]

/-- `optAsAliasPlain` consumes a rendered ` as alias` group. -/
theorem optAsAliasPlain_alias {a tail : List Char} {l : Nat} (ha : validIdent a)
    (ht : identLen tail = 0) :
    optAsAliasPlain ⟨' ' :: 'a' :: 's' :: ' ' :: (a ++ tail), l⟩ = ⟨tail, l⟩ := by
  have e1 : plainSpace1 ⟨' ' :: (['a', 's'] ++ (' ' :: (a ++ tail))), l⟩ =
      some (⟨['a', 's'] ++ (' ' :: (a ++ tail)), l⟩, [' ']) := plainSpace1_single rfl
  have e2 : pTag ['a', 's'] ⟨['a', 's'] ++ (' ' :: (a ++ tail)), l⟩ =
      some ⟨' ' :: (a ++ tail), l⟩ := pTag_append_nonl _ _ (by decide)
  have e3 : plainSpace1 ⟨' ' :: (a ++ tail), l⟩ = some (⟨a ++ tail, l⟩, [' ']) :=
    plainSpace1_single (plainSpaceLen_ident_append ha tail)
  have e4 : parse_identifier ⟨a ++ tail, l⟩ = some (⟨tail, l⟩, a) :=
    parse_identifier_append ha.2 ha.1 ht
  unfold optAsAliasPlain
  rw [show (' ' :: 'a' :: 's' :: ' ' :: (a ++ tail)) =
    ' ' :: (['a', 's'] ++ (' ' :: (a ++ tail))) from rfl]
  simp only [e1, e2, e3, e4]

/-- `modAliasItem` consumes a rendered item and yields its module text. -/
theorem modAliasItem_eval {it : SItem} (hit : validItem it) {tail : List Char}
    {l : Nat} (h1 : identLen tail = 0) (h2 : tail.head? ≠ some '.')
    (h3 : ∀ l', optAsAlias ⟨tail, l'⟩ = ⟨tail, l'⟩) :
    modAliasItem ⟨renderItem it ++ tail, l⟩ = some (⟨tail, l⟩, renderSegs it.segs) := by
  obtain ⟨hne, hv, hal⟩ := hit
  unfold modAliasItem
  cases hca : it.al with
  | none =>
    rw [show renderItem it ++ tail = renderSegs it.segs ++ tail by
      rw [renderItem, hca]
      simp]
    simp only [parse_module_eval hne hv h1 h2, h3 l]
  | some a =>
    have ha : validIdent a := hal a (by rw [hca]; rfl)
    have hil : identLen (' ' :: 'a' :: 's' :: ' ' :: (a ++ tail)) = 0 :=
      identLen_cons_false (by decide)
    rw [show renderItem it ++ tail =
      renderSegs it.segs ++ (' ' :: 'a' :: 's' :: ' ' :: (a ++ tail)) by
        rw [renderItem, hca]
        simp]
    simp only [parse_module_eval hne hv hil (by simp), optAsAlias_alias ha h1]

/-- `posModItem` consumes a rendered item and yields its line and module. -/
theorem posModItem_eval {it : SItem} (hit : validItem it) {tail : List Char}
    {l : Nat} (h1 : identLen tail = 0) (h2 : tail.head? ≠ some '.')
    (h3 : ∀ l', optAsAliasPlain ⟨tail, l'⟩ = ⟨tail, l'⟩) :
    NomRs.posModItem ⟨renderItem it ++ tail, l⟩ =
      some (⟨tail, l⟩, (l, renderSegs it.segs)) := by
  obtain ⟨hne, hv, hal⟩ := hit
  unfold NomRs.posModItem
  cases hca : it.al with
  | none =>
    rw [show renderItem it ++ tail = renderSegs it.segs ++ tail by
      rw [renderItem, hca]
      simp]
    simp only [parse_module_eval hne hv h1 h2, h3 l]
  | some a =>
    have ha : validIdent a := hal a (by rw [hca]; rfl)
    have hil : identLen (' ' :: 'a' :: 's' :: ' ' :: (a ++ tail)) = 0 :=
      identLen_cons_false (by decide)
    rw [show renderItem it ++ tail =
      renderSegs it.segs ++ (' ' :: 'a' :: 's' :: ' ' :: (a ++ tail)) by
        rw [renderItem, hca]
        simp]
    simp only [parse_module_eval hne hv hil (by simp), optAsAliasPlain_alias ha h1]

theorem optAsAlias_comma_head (w : List Char) (l : Nat) :
    optAsAlias ⟨',' :: w, l⟩ = ⟨',' :: w, l⟩ := rfl

theorem optAsAliasPlain_comma_head (w : List Char) (l : Nat) :
    optAsAliasPlain ⟨',' :: w, l⟩ = ⟨',' :: w, l⟩ := rfl

theorem sepCommaSpace_comma_eval {X : List Char} {l : Nat} (h : spaceLen X = 0) :
    sepCommaSpace ⟨',' :: ' ' :: X, l⟩ = some ⟨X, l⟩ := by
  have e0 : parse_space0 ⟨',' :: ' ' :: X, l⟩ = ⟨',' :: ' ' :: X, l⟩ :=
    parse_space0_zero rfl
  have e1 : pTag [','] ⟨[','] ++ (' ' :: X), l⟩ = some ⟨' ' :: X, l⟩ :=
    pTag_append_nonl _ _ (by decide)
  unfold sepCommaSpace
  rw [e0]
  rw [show (',' :: ' ' :: X) = [','] ++ (' ' :: X) from rfl]
  simp only [e1, parse_space0_single h]

theorem sepCommaPlain_comma_eval {X : List Char} {l : Nat} (h : plainSpaceLen X = 0) :
    NomRs.sepCommaPlain ⟨',' :: ' ' :: X, l⟩ = some ⟨X, l⟩ := by
  have e0 : plainSpace0 ⟨',' :: ' ' :: X, l⟩ = ⟨',' :: ' ' :: X, l⟩ :=
    plainSpace0_zero rfl
  have e1 : pTag [','] ⟨[','] ++ (' ' :: X), l⟩ = some ⟨' ' :: X, l⟩ :=
    pTag_append_nonl _ _ (by decide)
  unfold NomRs.sepCommaPlain
  rw [e0]
  rw [show (',' :: ' ' :: X) = [','] ++ (' ' :: X) from rfl]
  simp only [e1, plainSpace0_single h]

theorem renderItems_cons_cons (it : SItem) (a : SItem) (b : List SItem)
    (suf : List Char) : renderItems (it :: a :: b) ++ suf =
    renderItem it ++ (',' :: ' ' :: (renderItems (a :: b) ++ suf)) := by
  rw [show renderItems (it :: a :: b) =
    renderItem it ++ ',' :: ' ' :: renderItems (a :: b) from rfl]
  simp

/-- The separator/item loop consumes `, item, item, …` up to a stop suffix. -/
theorem itemsLoop_eval : ∀ (its : List SItem), its ≠ [] →
    (∀ it ∈ its, validItem it) → ∀ (suf : List Char) (l f : Nat),
    StopSuffix suf → its.length + 1 ≤ f →
    sepListLoop sepCommaSpace modAliasItem f
      ⟨',' :: ' ' :: (renderItems its ++ suf), l⟩ =
      some (⟨suf, l⟩, its.map fun it => renderSegs it.segs) := by
  intro its
  induction its with
  | nil => intro h; exact absurd rfl h
  | cons it t ih =>
    intro _hne hv suf l f hstop hf
    obtain ⟨hs1, hs2, hs3, hs4, hs5, hs6, hs7⟩ := hstop
    have hvi : validItem it := hv it (List.mem_cons_self it t)
    cases t with
    | nil =>
      cases f with
      | zero => simp at hf
      | succ f' =>
        cases f' with
        | zero => simp at hf
        | succ f'' =>
          have hsep : sepCommaSpace ⟨',' :: ' ' :: (renderItems [it] ++ suf), l⟩ =
              some ⟨renderItems [it] ++ suf, l⟩ := by
            rw [show (renderItems [it] : List Char) = renderItem it from rfl]
            exact sepCommaSpace_comma_eval (spaceLen_renderItem hvi suf)
          have hitem : modAliasItem ⟨renderItems [it] ++ suf, l⟩ =
              some (⟨suf, l⟩, renderSegs it.segs) := by
            rw [show (renderItems [it] : List Char) = renderItem it from rfl]
            exact modAliasItem_eval hvi hs1 hs2 hs3
          unfold sepListLoop
          simp only [hsep]
          rw [if_neg (by
            simp only [List.length_cons]
            omega)]
          simp only [hitem]
          rw [if_pos (by
            simp only [List.length_cons, List.length_append]
            omega)]
          unfold sepListLoop
          simp only [hs5 l]
          simp
    | cons a b =>
      cases f with
      | zero => simp at hf
      | succ f' =>
        have hsep : sepCommaSpace ⟨',' :: ' ' :: (renderItems (it :: a :: b) ++ suf), l⟩ =
            some ⟨renderItems (it :: a :: b) ++ suf, l⟩ := by
          rw [renderItems_cons_cons]
          rw [show (',' :: ' ' :: (renderItem it ++
            (',' :: ' ' :: (renderItems (a :: b) ++ suf)))) = ',' :: ' ' ::
            (renderItem it ++ (',' :: ' ' :: (renderItems (a :: b) ++ suf))) from rfl]
          rw [← renderItems_cons_cons]
          rw [renderItems_cons_cons]
          exact sepCommaSpace_comma_eval (spaceLen_renderItem hvi _)
        have hitem : modAliasItem ⟨renderItems (it :: a :: b) ++ suf, l⟩ =
            some (⟨',' :: ' ' :: (renderItems (a :: b) ++ suf), l⟩,
              renderSegs it.segs) := by
          rw [renderItems_cons_cons]
          exact modAliasItem_eval hvi (identLen_cons_false (by decide)) (by simp)
            (optAsAlias_comma_head _)
        have hrec := ih (by simp) (fun x hx => hv x (List.mem_cons_of_mem it hx))
          suf l f' ⟨hs1, hs2, hs3, hs4, hs5, hs6, hs7⟩ (by simp at hf ⊢; omega)
        unfold sepListLoop
        simp only [hsep]
        rw [if_neg (by
          simp only [List.length_cons]
          omega)]
        simp only [hitem]
        rw [if_pos (by
          conv_rhs => rw [renderItems_cons_cons]
          simp only [List.length_cons, List.length_append]
          omega)]
        simp only [hrec]
        simp

/-- `separated_list1` over items consumes a full rendered item list. -/
theorem sepList1F_items_eval {its : List SItem} (hne : its ≠ [])
    (hv : ∀ it ∈ its, validItem it) {suf : List Char} {l f : Nat}
    (hstop : StopSuffix suf) (hf : its.length + 1 ≤ f) :
    sepList1F sepCommaSpace modAliasItem f ⟨renderItems its ++ suf, l⟩ =
      some (⟨suf, l⟩, its.map fun it => renderSegs it.segs) := by
  obtain ⟨hs1, hs2, hs3, hs4, hs5, hs6, hs7⟩ := hstop
  cases its with
  | nil => exact absurd rfl hne
  | cons it t =>
    have hvi : validItem it := hv it (List.mem_cons_self it t)
    cases t with
    | nil =>
      cases f with
      | zero => simp at hf
      | succ f' =>
        have hitem : modAliasItem ⟨renderItems [it] ++ suf, l⟩ =
            some (⟨suf, l⟩, renderSegs it.segs) := by
          rw [show (renderItems [it] : List Char) = renderItem it from rfl]
          exact modAliasItem_eval hvi hs1 hs2 hs3
        unfold sepList1F
        simp only [hitem]
        unfold sepListLoop
        simp only [hs5 l]
        simp
    | cons a b =>
      have hitem : modAliasItem ⟨renderItems (it :: a :: b) ++ suf, l⟩ =
          some (⟨',' :: ' ' :: (renderItems (a :: b) ++ suf), l⟩,
            renderSegs it.segs) := by
        rw [renderItems_cons_cons]
        exact modAliasItem_eval hvi (identLen_cons_false (by decide)) (by simp)
          (optAsAlias_comma_head _)
      have hloop := itemsLoop_eval (a :: b) (by simp)
        (fun x hx => hv x (List.mem_cons_of_mem it hx)) suf l f
        ⟨hs1, hs2, hs3, hs4, hs5, hs6, hs7⟩ (by simp at hf ⊢; omega)
      unfold sepList1F
      simp only [hitem, hloop]
      simp

/-- The prototype's separator/item loop consumes `, item, …` likewise. -/
theorem itemsLoopPlain_eval : ∀ (its : List SItem), its ≠ [] →
    (∀ it ∈ its, validItem it) → ∀ (suf : List Char) (l f : Nat),
    StopSuffix suf → its.length + 1 ≤ f →
    sepListLoop NomRs.sepCommaPlain NomRs.posModItem f
      ⟨',' :: ' ' :: (renderItems its ++ suf), l⟩ =
      some (⟨suf, l⟩, its.map fun it => (l, renderSegs it.segs)) := by
  intro its
  induction its with
  | nil => intro h; exact absurd rfl h
  | cons it t ih =>
    intro _hne hv suf l f hstop hf
    obtain ⟨hs1, hs2, hs3, hs4, hs5, hs6, hs7⟩ := hstop
    have hvi : validItem it := hv it (List.mem_cons_self it t)
    cases t with
    | nil =>
      cases f with
      | zero => simp at hf
      | succ f' =>
        cases f' with
        | zero => simp at hf
        | succ f'' =>
          have hsep : NomRs.sepCommaPlain ⟨',' :: ' ' :: (renderItems [it] ++ suf), l⟩ =
              some ⟨renderItems [it] ++ suf, l⟩ := by
            rw [show (renderItems [it] : List Char) = renderItem it from rfl]
            exact sepCommaPlain_comma_eval (plainSpaceLen_renderItem hvi suf)
          have hitem : NomRs.posModItem ⟨renderItems [it] ++ suf, l⟩ =
              some (⟨suf, l⟩, (l, renderSegs it.segs)) := by
            rw [show (renderItems [it] : List Char) = renderItem it from rfl]
            exact posModItem_eval hvi hs1 hs2 hs4
          unfold sepListLoop
          simp only [hsep]
          rw [if_neg (by
            simp only [List.length_cons]
            omega)]
          simp only [hitem]
          rw [if_pos (by
            simp only [List.length_cons, List.length_append]
            omega)]
          unfold sepListLoop
          simp only [hs6 l]
          simp
    | cons a b =>
      cases f with
      | zero => simp at hf
      | succ f' =>
        have hsep : NomRs.sepCommaPlain
            ⟨',' :: ' ' :: (renderItems (it :: a :: b) ++ suf), l⟩ =
            some ⟨renderItems (it :: a :: b) ++ suf, l⟩ := by
          rw [renderItems_cons_cons]
          rw [← renderItems_cons_cons]
          rw [renderItems_cons_cons]
          exact sepCommaPlain_comma_eval (plainSpaceLen_renderItem hvi _)
        have hitem : NomRs.posModItem ⟨renderItems (it :: a :: b) ++ suf, l⟩ =
            some (⟨',' :: ' ' :: (renderItems (a :: b) ++ suf), l⟩,
              (l, renderSegs it.segs)) := by
          rw [renderItems_cons_cons]
          exact posModItem_eval hvi (identLen_cons_false (by decide)) (by simp)
            (optAsAliasPlain_comma_head _)
        have hrec := ih (by simp) (fun x hx => hv x (List.mem_cons_of_mem it hx))
          suf l f' ⟨hs1, hs2, hs3, hs4, hs5, hs6, hs7⟩ (by simp at hf ⊢; omega)
        unfold sepListLoop
        simp only [hsep]
        rw [if_neg (by
          simp only [List.length_cons]
          omega)]
        simp only [hitem]
        rw [if_pos (by
          conv_rhs => rw [renderItems_cons_cons]
          simp only [List.length_cons, List.length_append]
          omega)]
        simp only [hrec]
        simp

/-- The prototype's `separated_list1` over items consumes a full item list. -/
theorem sepList1F_itemsPlain_eval {its : List SItem} (hne : its ≠ [])
    (hv : ∀ it ∈ its, validItem it) {suf : List Char} {l f : Nat}
    (hstop : StopSuffix suf) (hf : its.length + 1 ≤ f) :
    sepList1F NomRs.sepCommaPlain NomRs.posModItem f ⟨renderItems its ++ suf, l⟩ =
      some (⟨suf, l⟩, its.map fun it => (l, renderSegs it.segs)) := by
  obtain ⟨hs1, hs2, hs3, hs4, hs5, hs6, hs7⟩ := hstop
  cases its with
  | nil => exact absurd rfl hne
  | cons it t =>
    have hvi : validItem it := hv it (List.mem_cons_self it t)
    cases t with
    | nil =>
      cases f with
      | zero => simp at hf
      | succ f' =>
        have hitem : NomRs.posModItem ⟨renderItems [it] ++ suf, l⟩ =
            some (⟨suf, l⟩, (l, renderSegs it.segs)) := by
          rw [show (renderItems [it] : List Char) = renderItem it from rfl]
          exact posModItem_eval hvi hs1 hs2 hs4
        unfold sepList1F
        simp only [hitem]
        unfold sepListLoop
        simp only [hs6 l]
        simp
    | cons a b =>
      have hitem : NomRs.posModItem ⟨renderItems (it :: a :: b) ++ suf, l⟩ =
          some (⟨',' :: ' ' :: (renderItems (a :: b) ++ suf), l⟩,
            (l, renderSegs it.segs)) := by
        rw [renderItems_cons_cons]
        exact posModItem_eval hvi (identLen_cons_false (by decide)) (by simp)
          (optAsAliasPlain_comma_head _)
      have hloop := itemsLoopPlain_eval (a :: b) (by simp)
        (fun x hx => hv x (List.mem_cons_of_mem it hx)) suf l f
        ⟨hs1, hs2, hs3, hs4, hs5, hs6, hs7⟩ (by simp at hf ⊢; omega)
      unfold sepList1F
      simp only [hitem, hloop]
      simp

theorem adv_append (a b : List Char) (l : Nat) :
    (PS.mk (a ++ b) l).adv a.length = ⟨b, l + countNL a⟩ := by
  unfold PS.adv
  simp only
  rw [List.drop_left, List.take_left]

theorem renderItems_length {its : List SItem} (hv : ∀ it ∈ its, validItem it) :
    its.length ≤ (renderItems its).length := by
  induction its with
  | nil => simp [renderItems]
  | cons it t ih =>
    have hit : validItem it := hv it (List.mem_cons_self it t)
    have hl : 1 ≤ it.segs.length := by
      cases h : it.segs with
      | nil => exact absurd h hit.1
      | cons _ _ => simp
    have hs := renderSegs_length hit.2.1
    have h1 : 1 ≤ (renderItem it).length := by
      unfold renderItem
      simp only [List.length_append]
      omega
    cases t with
    | nil =>
      rw [show (renderItems [it] : List Char) = renderItem it from rfl]
      simpa using h1
    | cons a b =>
      rw [show renderItems (it :: a :: b) =
        renderItem it ++ ',' :: ' ' :: renderItems (a :: b) from rfl]
      have h2 := ih (fun x hx => hv x (List.mem_cons_of_mem it hx))
      simp only [List.length_cons, List.length_append] at h2 ⊢
      omega

theorem spaceLen_renderItems {its : List SItem} (hne : its ≠ [])
    (hv : ∀ it ∈ its, validItem it) (suf : List Char) :
    spaceLen (renderItems its ++ suf) = 0 := by
  cases its with
  | nil => exact absurd rfl hne
  | cons it t =>
    have hit : validItem it := hv it (List.mem_cons_self it t)
    cases t with
    | nil =>
      rw [show (renderItems [it] : List Char) = renderItem it from rfl]
      exact spaceLen_renderItem hit suf
    | cons a b =>
      rw [renderItems_cons_cons]
      exact spaceLen_renderItem hit _

theorem plainSpaceLen_renderItems {its : List SItem} (hne : its ≠ [])
    (hv : ∀ it ∈ its, validItem it) (suf : List Char) :
    plainSpaceLen (renderItems its ++ suf) = 0 := by
  cases its with
  | nil => exact absurd rfl hne
  | cons it t =>
    have hit : validItem it := hv it (List.mem_cons_self it t)
    cases t with
    | nil =>
      rw [show (renderItems [it] : List Char) = renderItem it from rfl]
      exact plainSpaceLen_renderItem hit suf
    | cons a b =>
      rw [renderItems_cons_cons]
      exact plainSpaceLen_renderItem hit _

/-- `parse_import_statement` on a rendered simple import statement. -/
theorem parse_import_statement_eval {its : List SItem} (hne : its ≠ [])
    (hv : ∀ it ∈ its, validItem it) {suf : List Char} {l : Nat}
    (hstop : StopSuffix suf) (tco : Bool) :
    parse_import_statement tco ⟨"import ".toList ++ (renderItems its ++ suf), l⟩ =
      some (⟨suf, l⟩, its.map fun it =>
        ⟨renderSegs it.segs, l, "import ".toList ++ renderItems its, tco⟩) := by
  have htag : pTag "import".toList ⟨"import ".toList ++ (renderItems its ++ suf), l⟩ =
      some ⟨' ' :: (renderItems its ++ suf), l⟩ := by
    rw [show ("import ".toList ++ (renderItems its ++ suf) : List Char) =
      "import".toList ++ (' ' :: (renderItems its ++ suf)) from rfl]
    exact pTag_append_nonl _ _ (by decide)
  have hsp1 : parse_space1 ⟨' ' :: (renderItems its ++ suf), l⟩ =
      some ⟨renderItems its ++ suf, l⟩ :=
    parse_space1_single (spaceLen_renderItems hne hv suf)
  have hlist := sepList1F_items_eval hne hv (l := l)
    (f := (renderItems its ++ suf).length + 1) hstop (by
      have := renderItems_length hv
      simp only [List.length_append]
      omega)
  have hcb : consumedBetween ⟨"import ".toList ++ (renderItems its ++ suf), l⟩
      ⟨suf, l⟩ = "import ".toList ++ renderItems its := by
    rw [show ("import ".toList ++ (renderItems its ++ suf) : List Char) =
      ("import ".toList ++ renderItems its) ++ suf from by rw [List.append_assoc]]
    exact consumedBetween_append _ _ _ _
  unfold parse_import_statement
  simp only [htag, hsp1, hlist, hcb, List.map_map]
  rfl

/-- The four-way statement alternative on a rendered simple import: the first
alternative fires. -/
theorem parse_import_statement_any_eval {its : List SItem} (hne : its ≠ [])
    (hv : ∀ it ∈ its, validItem it) {suf : List Char} {l : Nat}
    (hstop : StopSuffix suf) (tco : Bool) :
    parse_import_statement_any tco ⟨"import ".toList ++ (renderItems its ++ suf), l⟩ =
      some (⟨suf, l⟩, its.map fun it =>
        ⟨renderSegs it.segs, l, "import ".toList ++ renderItems its, tco⟩) := by
  unfold parse_import_statement_any
  simp only [parse_import_statement_eval hne hv hstop tco]

/-- The `;`-separated statement list on a single rendered simple import
statement. -/
theorem parse_import_statement_list_eval {its : List SItem} (hne : its ≠ [])
    (hv : ∀ it ∈ its, validItem it) {suf suf2 : List Char} {l : Nat}
    (hstop : StopSuffix suf) (tco : Bool)
    (hsp : parse_space0 ⟨suf, l⟩ = ⟨suf2, l⟩)
    (hsemi : pTag [';'] ⟨suf2, l⟩ = none) :
    parse_import_statement_list tco ⟨"import ".toList ++ (renderItems its ++ suf), l⟩ =
      some (⟨suf2, l⟩, its.map fun it =>
        ⟨renderSegs it.segs, l, "import ".toList ++ renderItems its, tco⟩) := by
  obtain ⟨hs1, hs2, hs3, hs4, hs5, hs6, hs7⟩ := hstop
  have hany := parse_import_statement_any_eval hne hv
    ⟨hs1, hs2, hs3, hs4, hs5, hs6, hs7⟩ tco (l := l)
  have hloop : ∀ g, sepListLoop sepSemi (parse_import_statement_any tco) (g + 1)
      ⟨suf, l⟩ = some (⟨suf, l⟩, []) := by
    intro g
    unfold sepListLoop
    simp only [hs7 l]
  unfold parse_import_statement_list
  unfold sepList1F
  simp only [hany, hloop]
  unfold optTagState
  simp only [hsp, hsemi]
  simp

theorem pTag_nl (z : List Char) (n : Nat) :
    pTag ['\n'] ⟨'\n' :: z, n⟩ = some ⟨z, n + 1⟩ := by
  rw [show ('\n' :: z : List Char) = ['\n'] ++ z from rfl, pTag_append]
  norm_num [countNL]

/-- `parse_comment` consumes a line-terminator-free comment body up to (not
including) the newline. -/
theorem parse_comment_eval {c : List Char} (hc : noCRLF c = true) (z : List Char)
    (n : Nat) : parse_comment ⟨'#' :: (c ++ '\n' :: z), n⟩ = some ⟨'\n' :: z, n⟩ := by
  have ht : pTag ['#'] ⟨'#' :: (c ++ '\n' :: z), n⟩ = some ⟨c ++ '\n' :: z, n⟩ := by
    rw [show ('#' :: (c ++ '\n' :: z) : List Char) = ['#'] ++ (c ++ '\n' :: z) from rfl]
    exact pTag_append_nonl _ _ (by decide)
  have hnle : pNotLineEnding ⟨c ++ '\n' :: z, n⟩ = some (⟨'\n' :: z, n⟩, c) := by
    unfold pNotLineEnding
    simp only [nleLen_append_of_noCRLF hc]
    rw [adv_append c ('\n' :: z) n, countNL_eq_zero_of_noCRLF hc, List.take_left]
    simp
  unfold parse_comment
  simp only [ht, hnle]

/-- One driver round on a rendered simple import statement: the statement-list
alternative fires (the five alternatives before it fail on the head). -/
theorem block_step_import_line {recB : PS → Option (PS × List Import)} {tco : Bool}
    {its : List SItem} (hne : its ≠ []) (hv : ∀ it ∈ its, validItem it)
    {suf suf2 : List Char} {n : Nat} (hstop : StopSuffix suf)
    (hsp : parse_space0 ⟨suf, n⟩ = ⟨suf2, n⟩)
    (hsemi : pTag [';'] ⟨suf2, n⟩ = none) :
    block_step_gen recB tco ⟨"import ".toList ++ (renderItems its ++ suf), n⟩ =
      some (⟨suf2, n⟩, its.map fun it =>
        ⟨renderSegs it.segs, n, "import ".toList ++ renderItems its, tco⟩) := by
  have h1 : parse_if_typechecking_gen recB
      ⟨"import ".toList ++ (renderItems its ++ suf), n⟩ = none := rfl
  have h2 : parse_space1 ⟨"import ".toList ++ (renderItems its ++ suf), n⟩ = none := rfl
  have h3 : pLineEnding ⟨"import ".toList ++ (renderItems its ++ suf), n⟩ = none := rfl
  have h4 : parse_multiline_comment
      ⟨"import ".toList ++ (renderItems its ++ suf), n⟩ = none := rfl
  have h5 : parse_comment ⟨"import ".toList ++ (renderItems its ++ suf), n⟩ = none := rfl
  have h6 := parse_import_statement_list_eval hne hv hstop tco hsp hsemi
  unfold block_step_gen
  simp only [h1, h2, h3, h4, h5, h6]

/-- One driver round on a comment line tail: the comment alternative fires. -/
theorem block_step_comment {recB : PS → Option (PS × List Import)} {tco : Bool}
    {c : List Char} (hc : noCRLF c = true) (z : List Char) (n : Nat) :
    block_step_gen recB tco ⟨'#' :: (c ++ '\n' :: z), n⟩ = some (⟨'\n' :: z, n⟩, []) := by
  have h1 : parse_if_typechecking_gen recB ⟨'#' :: (c ++ '\n' :: z), n⟩ = none := rfl
  have h2 : parse_space1 ⟨'#' :: (c ++ '\n' :: z), n⟩ = none := rfl
  have h3 : pLineEnding ⟨'#' :: (c ++ '\n' :: z), n⟩ = none := rfl
  have h4 : parse_multiline_comment ⟨'#' :: (c ++ '\n' :: z), n⟩ = none := rfl
  have h5 := parse_comment_eval hc z n
  unfold block_step_gen
  simp only [h1, h2, h3, h4, h5]

/-- One driver round at a newline: the line-ending alternative fires. -/
theorem block_step_newline {recB : PS → Option (PS × List Import)} {tco : Bool}
    (z : List Char) (n : Nat) :
    block_step_gen recB tco ⟨'\n' :: z, n⟩ = some (⟨z, n + 1⟩, []) := by
  have h1 : parse_if_typechecking_gen recB ⟨'\n' :: z, n⟩ = none := rfl
  have h2 : parse_space1 ⟨'\n' :: z, n⟩ = none := rfl
  have h3 := pLineEnding_cons_nl z n
  unfold block_step_gen
  simp only [h1, h2, h3]

/-- `many0F` is monotone in its fuel on successful runs. -/
theorem many0F_mono {α : Type} (p : PS → Option (PS × α)) :
    ∀ {f f' : Nat} {st : PS} {r : PS × List α}, many0F p f st = some r → f ≤ f' →
    many0F p f' st = some r := by
  intro f
  induction f with
  | zero =>
    intro f' st r h
    simp [many0F] at h
  | succ g ih =>
    intro f' st r h hle
    cases f' with
    | zero => omega
    | succ g' =>
      unfold many0F at h ⊢
      cases hp : p st with
      | none =>
        simp only [hp] at h ⊢
        exact h
      | some pa =>
        obtain ⟨st1, a⟩ := pa
        simp only [hp] at h ⊢
        by_cases hlt : st1.rest.length < st.rest.length
        · rw [if_pos hlt] at h ⊢
          cases hr : many0F p g st1 with
          | none =>
            simp only [hr] at h
            simp at h
          | some r2 =>
            rw [ih hr (by omega)]
            simp only [hr] at h
            exact h
        · rw [if_neg hlt] at h
          exact absurd h (by simp)

/-- The driver consumes one rendered source line (statement, optional comment,
newline) in two or three rounds, then continues as from the rest. -/
theorem many0F_blockstep_line {recB : PS → Option (PS × List Import)} {tco : Bool}
    {L : SLine} (hL : validLine L) {z : List Char} {n f : Nat} {stz : PS}
    {gs : List (List Import)}
    (hrec : many0F (block_step_gen recB tco) f ⟨z, n + 1⟩ = some (stz, gs)) :
    ∃ gs', many0F (block_step_gen recB tco) (f + 3) ⟨renderLine L ++ '\n' :: z, n⟩ =
      some (stz, gs') ∧
      gs'.flatten = (L.items.map fun it =>
        ⟨renderSegs it.segs, n, "import ".toList ++ renderItems L.items, tco⟩)
        ++ gs.flatten := by
  obtain ⟨hne, hv, hcom⟩ := hL
  have hA : ("import ".toList : List Char).length = 7 := rfl
  cases hcomv : L.com with
  | none =>
    have hshape : renderLine L ++ '\n' :: z =
        "import ".toList ++ (renderItems L.items ++ ('\n' :: z)) := by
      unfold renderLine
      rw [hcomv]
      simp
    have hstep1 := @block_step_import_line recB tco L.items hne hv
      ('\n' :: z) ('\n' :: z) n
      (stopSuffix_nl z) (parse_space0_zero rfl) rfl
    have hstep2 := @block_step_newline recB tco z n
    refine ⟨(L.items.map fun it =>
      ⟨renderSegs it.segs, n, "import ".toList ++ renderItems L.items, tco⟩) ::
      [] :: gs, ?_, by simp⟩
    rw [hshape]
    rw [show f + 3 = (f + 2) + 1 from rfl]
    unfold many0F
    simp only [hstep1]
    rw [if_pos (by
      simp only [List.length_cons, List.length_append, hA]
      omega)]
    rw [show f + 2 = (f + 1) + 1 from rfl]
    unfold many0F
    simp only [hstep2]
    rw [if_pos (by simp)]
    rw [many0F_mono _ hrec (by omega)]
  | some c =>
    have hc : noCRLF c = true := hcom c (by rw [hcomv]; rfl)
    have hshape : renderLine L ++ '\n' :: z =
        "import ".toList ++ (renderItems L.items ++ (' ' :: '#' :: (c ++ '\n' :: z))) := by
      unfold renderLine
      rw [hcomv]
      simp
    have hstep1 := @block_step_import_line recB tco L.items hne hv
      (' ' :: '#' :: (c ++ '\n' :: z)) ('#' :: (c ++ '\n' :: z)) n
      (stopSuffix_comment _) (parse_space0_single rfl) rfl
    have hstep2 := @block_step_comment recB tco c hc z n
    have hstep3 := @block_step_newline recB tco z n
    refine ⟨(L.items.map fun it =>
      ⟨renderSegs it.segs, n, "import ".toList ++ renderItems L.items, tco⟩) ::
      [] :: [] :: gs, ?_, by simp⟩
    rw [hshape]
    rw [show f + 3 = (f + 2) + 1 from rfl]
    unfold many0F
    simp only [hstep1]
    rw [if_pos (by
      simp only [List.length_cons, List.length_append, hA]
      omega)]
    rw [show f + 2 = (f + 1) + 1 from rfl]
    unfold many0F
    simp only [hstep2]
    rw [if_pos (by
      simp only [List.length_cons, List.length_append]
      omega)]
    unfold many0F
    simp only [hstep3]
    rw [if_pos (by simp)]
    rw [hrec]

theorem renderProg_length_ge : ∀ p : List SLine, 3 * p.length ≤ (renderProg p).length := by
  intro p
  induction p with
  | nil => simp [renderProg]
  | cons L ls ih =>
    have hA : ("import ".toList : List Char).length = 7 := rfl
    have hline : 7 ≤ (renderLine L).length := by
      unfold renderLine
      simp only [List.length_append, hA]
      omega
    rw [show renderProg (L :: ls) = renderLine L ++ '\n' :: renderProg ls from rfl]
    simp only [List.length_cons, List.length_append]
    omega

/-- The driver consumes a whole rendered simple-import program, emitting
exactly its expected records in order, none typechecking-only. -/
theorem many0F_blockstep_prog {recB : PS → Option (PS × List Import)} :
    ∀ (p : List SLine), validProg p → ∀ (n : Nat),
    ∃ gs, many0F (block_step_gen recB false) (3 * p.length + 1) ⟨renderProg p, n⟩ =
      some (⟨[], n + p.length⟩, gs) ∧
      gs.flatten.map (fun r => (r.imported_object, r.line_number)) = expectedPairs n p ∧
      ∀ r ∈ gs.flatten, r.typechecking_only = false := by
  intro p
  induction p with
  | nil =>
    intro _ n
    exact ⟨[], rfl, rfl, by simp⟩
  | cons L ls ih =>
    intro hp n
    have hL : validLine L := hp L (List.mem_cons_self L ls)
    obtain ⟨gs, hgs, hpairs, htco⟩ := ih (fun l hl => hp l (List.mem_cons_of_mem L hl)) (n + 1)
    obtain ⟨gs', hgs', hflat⟩ := many0F_blockstep_line hL hgs
    refine ⟨gs', ?_, ?_, ?_⟩
    · rw [show renderProg (L :: ls) = renderLine L ++ '\n' :: renderProg ls from rfl]
      rw [show 3 * (L :: ls).length + 1 = (3 * ls.length + 1) + 3 from by
        simp only [List.length_cons]; omega]
      rw [show n + (L :: ls).length = (n + 1) + ls.length from by
        simp only [List.length_cons]; omega]
      exact hgs'
    · rw [hflat, List.map_append, hpairs]
      rw [show expectedPairs n (L :: ls) =
        L.items.map (fun it => (renderSegs it.segs, n)) ++ expectedPairs (n + 1) ls
        from rfl]
      congr 1
      rw [List.map_map]
      rfl
    · intro r hr
      rw [hflat] at hr
      rcases List.mem_append.mp hr with h | h
      · obtain ⟨it, -, rfl⟩ := List.mem_map.mp h
        rfl
      · exact htco r h

/-- The main parser on a rendered simple-import program. -/
theorem parse_imports_prog {p : List SLine} (hp : validProg p) :
    ∃ recs, parse_imports (renderProg p) = some recs ∧
      recs.map (fun r => (r.imported_object, r.line_number)) = expectedPairs 1 p ∧
      ∀ r ∈ recs, r.typechecking_only = false := by
  obtain ⟨gs, hgs, hpairs, htco⟩ := @many0F_blockstep_prog
    (fun s => parse_block (renderProg p).length true s) p hp 1
  have hmono := many0F_mono _ hgs (show 3 * p.length + 1 ≤ (renderProg p).length + 1 by
    have := renderProg_length_ge p
    omega)
  refine ⟨gs.flatten, ?_, hpairs, htco⟩
  unfold parse_imports
  unfold parse_block
  simp only [hmono]
  simp

/-- Core evaluation of the prototype's statement parser on a rendered simple
import, up to its trailing `space0`/comment/newline consumption. -/
theorem nomrs_statement_core {its : List SItem} (hne : its ≠ [])
    (hv : ∀ it ∈ its, validItem it) {suf : List Char} {n : Nat}
    (hstop : StopSuffix suf) {stE : PS}
    (hend : optTagState ['\n'] (optCommentState (plainSpace0 ⟨suf, n⟩)) = stE) :
    NomRs.parse_import_statement ⟨"import ".toList ++ (renderItems its ++ suf), n⟩ =
      some (stE, its.map fun it => ⟨renderSegs it.segs, n, false⟩) := by
  have htag : pTag "import".toList ⟨"import ".toList ++ (renderItems its ++ suf), n⟩ =
      some ⟨' ' :: (renderItems its ++ suf), n⟩ := by
    rw [show ("import ".toList ++ (renderItems its ++ suf) : List Char) =
      "import".toList ++ (' ' :: (renderItems its ++ suf)) from rfl]
    exact pTag_append_nonl _ _ (by decide)
  have hsp1 : plainSpace1 ⟨' ' :: (renderItems its ++ suf), n⟩ =
      some (⟨renderItems its ++ suf, n⟩, [' ']) :=
    plainSpace1_single (plainSpaceLen_renderItems hne hv suf)
  have hlist := sepList1F_itemsPlain_eval hne hv (l := n)
    (f := (renderItems its ++ suf).length + 1) hstop (by
      have := renderItems_length hv
      simp only [List.length_append]
      omega)
  unfold NomRs.parse_import_statement
  simp only [htag, hsp1, hlist, hend, List.map_map]
  rfl

/-- The prototype's statement parser consumes one full rendered line including
its newline, advancing the position to the next line. -/
theorem nomrs_statement_line_eval {L : SLine} (hL : validLine L) (z : List Char)
    (n : Nat) :
    NomRs.parse_import_statement ⟨renderLine L ++ '\n' :: z, n⟩ =
      some (⟨z, n + 1⟩, L.items.map fun it => ⟨renderSegs it.segs, n, false⟩) := by
  obtain ⟨hne, hv, hcom⟩ := hL
  cases hcomv : L.com with
  | none =>
    have hshape : renderLine L ++ '\n' :: z =
        "import ".toList ++ (renderItems L.items ++ ('\n' :: z)) := by
      unfold renderLine
      rw [hcomv]
      simp
    rw [hshape]
    refine nomrs_statement_core hne hv (stopSuffix_nl z) ?_
    rw [plainSpace0_zero (r := '\n' :: z) (l := n) rfl]
    unfold optCommentState
    simp only [show parse_comment ⟨'\n' :: z, n⟩ = none from rfl]
    unfold optTagState
    simp only [pTag_nl]
  | some c =>
    have hc : noCRLF c = true := hcom c (by rw [hcomv]; rfl)
    have hshape : renderLine L ++ '\n' :: z =
        "import ".toList ++ (renderItems L.items ++ (' ' :: '#' :: (c ++ '\n' :: z))) := by
      unfold renderLine
      rw [hcomv]
      simp
    rw [hshape]
    refine nomrs_statement_core hne hv (stopSuffix_comment _) ?_
    have hps : plainSpace0 ⟨' ' :: '#' :: (c ++ '\n' :: z), n⟩ =
        ⟨'#' :: (c ++ '\n' :: z), n⟩ := plainSpace0_single rfl
    rw [hps]
    unfold optCommentState
    simp only [parse_comment_eval hc z n]
    unfold optTagState
    simp only [pTag_nl]

/-- The prototype's statement loop consumes a whole rendered program, one
statement per line, emitting its expected records. -/
theorem nomrs_many0F_prog : ∀ (p : List SLine), validProg p → ∀ (n f : Nat),
    p.length + 1 ≤ f →
    ∃ gs, many0F NomRs.parse_import_statement f ⟨renderProg p, n⟩ =
      some (⟨[], n + p.length⟩, gs) ∧
      gs.flatten.map (fun r => (r.imported_object, r.line_number)) = expectedPairs n p := by
  intro p
  induction p with
  | nil =>
    intro _ n f hf
    cases f with
    | zero => omega
    | succ g =>
      refine ⟨[], ?_, rfl⟩
      unfold many0F
      simp only [show NomRs.parse_import_statement ⟨renderProg [], n⟩ = none from rfl]
      rfl
  | cons L ls ih =>
    intro hp n f hf
    have hL : validLine L := hp L (List.mem_cons_self L ls)
    cases f with
    | zero => omega
    | succ g =>
      obtain ⟨gs, hgs, hpairs⟩ := ih (fun l hl => hp l (List.mem_cons_of_mem L hl))
        (n + 1) g (by simp only [List.length_cons] at hf ⊢; omega)
      have hstep := nomrs_statement_line_eval hL (renderProg ls) n
      refine ⟨(L.items.map fun it => ⟨renderSegs it.segs, n, false⟩) :: gs, ?_, ?_⟩
      · rw [show renderProg (L :: ls) = renderLine L ++ '\n' :: renderProg ls from rfl]
        rw [show n + (L :: ls).length = (n + 1) + ls.length from by
          simp only [List.length_cons]; omega]
        unfold many0F
        simp only [hstep]
        rw [if_pos (by
          simp only [List.length_cons, List.length_append]
          omega)]
        rw [hgs]
      · simp only [List.flatten_cons, List.map_append, hpairs]
        rw [show expectedPairs n (L :: ls) =
          L.items.map (fun it => (renderSegs it.segs, n)) ++ expectedPairs (n + 1) ls
          from rfl]
        congr 1
        rw [List.map_map]
        rfl

/-- The prototype parser on a rendered simple-import program. -/
theorem nomrs_parse_imports_prog {p : List SLine} (hp : validProg p) :
    ∃ recs, NomRs.parse_imports (renderProg p) = some recs ∧
      recs.map (fun r => (r.imported_object, r.line_number)) = expectedPairs 1 p := by
  obtain ⟨gs, hgs, hpairs⟩ := nomrs_many0F_prog p hp 1 ((renderProg p).length + 1) (by
    have := renderProg_length_ge p
    omega)
  refine ⟨gs.flatten, ?_, hpairs⟩
  unfold NomRs.parse_imports
  simp only [hgs]
  simp

/-- If `q3` does not occur in `y` and `y` does not end in a quote, the first
occurrence of `q3` in `y ++ q3` is exactly at the end of `y`. -/
theorem firstOccIdx_append_self : ∀ {y : List Char},
    firstOccIdx q3 y = none → y.getLast? ≠ some '"' →
    firstOccIdx q3 (y ++ q3) = some y.length := by
  intro y
  induction y with
  | nil =>
    intro _ _
    decide
  | cons c t ih =>
    intro hy hl
    unfold firstOccIdx at hy
    by_cases hpre : q3.isPrefixOf (c :: t) = true
    · rw [if_pos hpre] at hy
      exact absurd hy (by simp)
    · rw [if_neg hpre] at hy
      have ht : firstOccIdx q3 t = none := by
        cases hq : firstOccIdx q3 t with
        | none => rfl
        | some k =>
          rw [hq] at hy
          simp at hy
      have hlt : t.getLast? ≠ some '"' := by
        cases t with
        | nil => simp
        | cons d u =>
          rw [List.getLast?_cons_cons] at hl
          exact hl
      have hrec := ih ht hlt
      have hnp : ¬ q3.isPrefixOf (c :: (t ++ q3)) = true := by
        rw [List.isPrefixOf_iff_prefix]
        intro hp
        obtain ⟨s, hs⟩ := hp
        rw [show (q3 : List Char) = ['"', '"', '"'] from rfl] at hs
        cases t with
        | nil =>
          simp only [List.cons_append, List.nil_append, List.cons.injEq] at hs
          apply hl
          rw [show List.getLast? [c] = some c from rfl, ← hs.1]
        | cons d u =>
          cases u with
          | nil =>
            simp only [List.cons_append, List.nil_append, List.cons.injEq] at hs
            apply hl
            rw [show List.getLast? [c, d] = some d from rfl, ← hs.2.1]
          | cons e v =>
            simp only [List.cons_append, List.nil_append, List.cons.injEq] at hs
            obtain ⟨hc1, hd1, he1, -⟩ := hs
            apply hpre
            rw [List.isPrefixOf_iff_prefix,
              show (q3 : List Char) = ['"', '"', '"'] from rfl]
            exact ⟨v, by simp [← hc1, ← hd1, ← he1]⟩
      rw [show ((c :: t) ++ q3 : List Char) = c :: (t ++ q3) from rfl]
      unfold firstOccIdx
      rw [if_neg hnp, hrec]
      simp

/-- `parse_comment` consumes a comment that runs to the end of input. -/
theorem parse_comment_eol {x : List Char} (hx : noCRLF x = true) (n : Nat) :
    parse_comment ⟨'#' :: x, n⟩ = some ⟨[], n⟩ := by
  have ht : pTag ['#'] ⟨'#' :: x, n⟩ = some ⟨x, n⟩ := by
    rw [show ('#' :: x : List Char) = ['#'] ++ x from rfl]
    exact pTag_append_nonl _ _ (by decide)
  have hnle : pNotLineEnding ⟨x, n⟩ = some (⟨[], n⟩, x) := by
    unfold pNotLineEnding
    simp only [nleLen_of_noCRLF hx]
    unfold PS.adv
    simp [countNL_eq_zero_of_noCRLF hx]
  unfold parse_comment
  simp only [ht, hnle]

/-- One driver round on a comment running to end of input. -/
theorem block_step_comment_eol {recB : PS → Option (PS × List Import)}
    {tco : Bool} {x : List Char} (hx : noCRLF x = true) (n : Nat) :
    block_step_gen recB tco ⟨'#' :: x, n⟩ = some (⟨[], n⟩, []) := by
  have h1 : parse_if_typechecking_gen recB ⟨'#' :: x, n⟩ = none := rfl
  have h2 : parse_space1 ⟨'#' :: x, n⟩ = none := rfl
  have h3 : pLineEnding ⟨'#' :: x, n⟩ = none := rfl
  have h4 : parse_multiline_comment ⟨'#' :: x, n⟩ = none := rfl
  have h5 := parse_comment_eol hx n
  unfold block_step_gen
  simp only [h1, h2, h3, h4, h5]

/-- A terminated `"""…"""` block literal is consumed whole by
`parse_multiline_comment`. -/
theorem parse_multiline_comment_eval {y : List Char} (hy : firstOccIdx q3 y = none)
    (hl : y.getLast? ≠ some '"') (n : Nat) :
    parse_multiline_comment ⟨q3 ++ (y ++ q3), n⟩ = some ⟨[], n + countNL y⟩ := by
  unfold parse_multiline_comment
  unfold pDelimitedBy
  have ht : pTag q3 ⟨q3 ++ (y ++ q3), n⟩ = some ⟨y ++ q3, n⟩ := by
    have := pTag_append_nonl (t := q3) (y ++ q3) n (by decide)
    simpa using this
  have htu : pTakeUntil q3 ⟨y ++ q3, n⟩ = some ⟨q3, n + countNL y⟩ := by
    unfold pTakeUntil
    simp only [firstOccIdx_append_self hy hl]
    rw [adv_append y q3 n]
  have ht2 : pTag q3 ⟨q3, n + countNL y⟩ = some ⟨[], n + countNL y⟩ := by
    have := pTag_append_nonl (t := q3) [] (n + countNL y) (by decide)
    simpa using this
  simp only [ht, htu, ht2]

/-- One driver round on a terminated triple-quoted literal spanning the rest
of the input. -/
theorem block_step_triquote {recB : PS → Option (PS × List Import)} {tco : Bool}
    {y : List Char} (hy : firstOccIdx q3 y = none) (hl : y.getLast? ≠ some '"')
    (n : Nat) :
    block_step_gen recB tco ⟨q3 ++ (y ++ q3), n⟩ = some (⟨[], n + countNL y⟩, []) := by
  have h1 : parse_if_typechecking_gen recB ⟨q3 ++ (y ++ q3), n⟩ = none := rfl
  have h2 : parse_space1 ⟨q3 ++ (y ++ q3), n⟩ = none := rfl
  have h3 : pLineEnding ⟨q3 ++ (y ++ q3), n⟩ = none := rfl
  have h4 := parse_multiline_comment_eval hy hl n
  unfold block_step_gen
  simp only [h1, h2, h3, h4]

/-- If one driver round consumes the whole input (emitting nothing),
`parse_imports` succeeds with no records. -/
theorem parse_imports_one_step {s : List Char} {m : Nat}
    (hstep : ∀ recB : PS → Option (PS × List Import),
      block_step_gen recB false ⟨s, 1⟩ = some (⟨[], m⟩, [])) :
    parse_imports s = some [] := by
  cases s with
  | nil =>
    have h0 := hstep (fun _ => none)
    rw [block_step_gen_none_of_empty rfl] at h0
    exact absurd h0 (by simp)
  | cons c t =>
    unfold parse_imports
    unfold parse_block
    unfold many0F
    simp only [hstep]
    rw [if_pos (by simp)]
    rw [show (List.length (c :: t) : Nat) = t.length + 1 from by simp]
    unfold many0F
    simp only [block_step_gen_none_of_empty
      (show (⟨([] : List Char), m⟩ : PS).rest = [] from rfl)]
    simp

/-! ## Claim theorems -/

/-- C1: for every successfully parsed from-import statement (single-line,
parenthesised multi-line, or wildcard), the parse decomposes into the unique
run of its sub-parsers chained from the start state, with `base` THE relative
module parsed by `parse_relative_module` on the state reached after
`from`+space and `ids` THE identifiers parsed by the item list; the emitted
record list equals exactly this statement's identifiers mapped through the
spec's canonical-name law on this statement's `base` (`base ++ i` when `base`
ends in `.`, else `base ++ "." ++ i`; `*` substituted for wildcards). -/
theorem claim_C1 :
    (∀ (tco : Bool) (st st' : PS) (recs : List Import),
      parse_from_import_statement tco st = some (st', recs) →
      ∃ (st1 st2 st3 st4 st5 st6 : PS) (base : List Char) (ids : List (List Char)),
        pTag "from".toList st = some st1 ∧
        parse_space1 st1 = some st2 ∧
        parse_relative_module st2 = some (st3, base) ∧
        parse_space1 st3 = some st4 ∧
        pTag "import".toList st4 = some st5 ∧
        parse_space1 st5 = some st6 ∧
        sepList1F sepCommaSpace identAliasItem (st6.rest.length + 1) st6 =
          some (st', ids) ∧
        recs = ids.map fun i =>
          ⟨specCanonicalName base i, st.line, consumedBetween st st', tco⟩) ∧
    (∀ (tco : Bool) (st st' : PS) (recs : List Import),
      parse_multiline_from_import_statement tco st = some (st', recs) →
      ∃ (st1 st2 st3 st4 st5 st6 st7 st8 st9 stA stC : PS)
        (base : List Char) (ids : List (List Char)),
        pTag "from".toList st = some st1 ∧
        parse_space1 st1 = some st2 ∧
        parse_relative_module st2 = some (st3, base) ∧
        parse_space1 st3 = some st4 ∧
        pTag "import".toList st4 = some st5 ∧
        parse_space1 st5 = some st6 ∧
        pTag ['('] st6 = some st7 ∧
        ms0c st7 = some st8 ∧
        sepList1F sepCommaMS identAliasItemMS (st8.rest.length + 1) st8 =
          some (st9, ids) ∧
        ms0c st9 = some stA ∧
        ms0c (optTagState [','] stA) = some stC ∧
        pTag [')'] stC = some st' ∧
        recs = ids.map fun i =>
          ⟨specCanonicalName base i, st.line, consumedBetween st st', tco⟩) ∧
    (∀ (tco : Bool) (st st' : PS) (recs : List Import),
      parse_wildcard_from_import_statement tco st = some (st', recs) →
      ∃ (st1 st2 st3 st4 st5 st6 : PS) (base : List Char),
        pTag "from".toList st = some st1 ∧
        parse_space1 st1 = some st2 ∧
        parse_relative_module st2 = some (st3, base) ∧
        parse_space1 st3 = some st4 ∧
        pTag "import".toList st4 = some st5 ∧
        parse_space1 st5 = some st6 ∧
        pTag ['*'] st6 = some st' ∧
        recs = [⟨specCanonicalName base ['*'], st.line,
          consumedBetween st st', tco⟩]) := by
  refine ⟨?_, ?_, ?_⟩
  · intro tco st st' recs h
    unfold parse_from_import_statement at h
    split at h
    · exact absurd h (by simp)
    · rename_i st1 h1
      split at h
      · exact absurd h (by simp)
      · rename_i st2 h2
        split at h
        · exact absurd h (by simp)
        · rename_i st3 base h3
          split at h
          · exact absurd h (by simp)
          · rename_i st4 h4
            split at h
            · exact absurd h (by simp)
            · rename_i st5 h5
              split at h
              · exact absurd h (by simp)
              · rename_i st6 h6
                split at h
                · exact absurd h (by simp)
                · rename_i st7 ids h7
                  simp only [Option.some.injEq, Prod.mk.injEq] at h
                  obtain ⟨rfl, rfl⟩ := h
                  exact ⟨st1, st2, st3, st4, st5, st6, base, ids,
                    h1, h2, h3, h4, h5, h6, h7, rfl⟩
  · intro tco st st' recs h
    unfold parse_multiline_from_import_statement at h
    split at h
    · exact absurd h (by simp)
    · rename_i st1 h1
      split at h
      · exact absurd h (by simp)
      · rename_i st2 h2
        split at h
        · exact absurd h (by simp)
        · rename_i st3 base h3
          split at h
          · exact absurd h (by simp)
          · rename_i st4 h4
            split at h
            · exact absurd h (by simp)
            · rename_i st5 h5
              split at h
              · exact absurd h (by simp)
              · rename_i st6 h6
                split at h
                · exact absurd h (by simp)
                · rename_i st7 h7
                  split at h
                  · exact absurd h (by simp)
                  · rename_i st8 h8
                    split at h
                    · exact absurd h (by simp)
                    · rename_i st9 ids h9
                      split at h
                      · exact absurd h (by simp)
                      · rename_i stA hA
                        split at h
                        · exact absurd h (by simp)
                        · rename_i stC hC
                          split at h
                          · exact absurd h (by simp)
                          · rename_i stD hD
                            simp only [Option.some.injEq, Prod.mk.injEq] at h
                            obtain ⟨rfl, rfl⟩ := h
                            exact ⟨st1, st2, st3, st4, st5, st6, st7, st8,
                              st9, stA, stC, base, ids, h1, h2, h3, h4, h5,
                              h6, h7, h8, h9, hA, hC, hD, rfl⟩
  · intro tco st st' recs h
    unfold parse_wildcard_from_import_statement at h
    split at h
    · exact absurd h (by simp)
    · rename_i st1 h1
      split at h
      · exact absurd h (by simp)
      · rename_i st2 h2
        split at h
        · exact absurd h (by simp)
        · rename_i st3 base h3
          split at h
          · exact absurd h (by simp)
          · rename_i st4 h4
            split at h
            · exact absurd h (by simp)
            · rename_i st5 h5
              split at h
              · exact absurd h (by simp)
              · rename_i st6 h6
                split at h
                · exact absurd h (by simp)
                · rename_i st7 h7
                  simp only [Option.some.injEq, Prod.mk.injEq] at h
                  obtain ⟨rfl, rfl⟩ := h
                  exact ⟨st1, st2, st3, st4, st5, st6, base,
                    h1, h2, h3, h4, h5, h6, h7, rfl⟩

/-- Witness for C1 at `from . import x`: the sub-parser chain runs as stated
and the single record's name is `specCanonicalName "." "x"` = `.x`. -/
theorem claim_C1_witness :
    ∃ (st1 st2 st3 st4 st5 st6 : PS) (base : List Char) (ids : List (List Char)),
      pTag "from".toList ⟨"from . import x".toList, 1⟩ = some st1 ∧
      parse_space1 st1 = some st2 ∧
      parse_relative_module st2 = some (st3, base) ∧
      parse_space1 st3 = some st4 ∧
      pTag "import".toList st4 = some st5 ∧
      parse_space1 st5 = some st6 ∧
      sepList1F sepCommaSpace identAliasItem (st6.rest.length + 1) st6 =
        some (⟨[], 1⟩, ids) ∧
      [(⟨".x".toList, 1, "from . import x".toList, false⟩ : Import)] =
        ids.map fun i => ⟨specCanonicalName base i, 1,
          consumedBetween ⟨"from . import x".toList, 1⟩ ⟨[], 1⟩, false⟩ :=
  claim_C1.1 false ⟨"from . import x".toList, 1⟩ ⟨[], 1⟩
    [⟨".x".toList, 1, "from . import x".toList, false⟩] (by decide)

/-- C2 (corrected): `parse_imports` can fail on non-empty input — a lone
carriage return defeats every driver alternative (nom's `not_line_ending`
rejects a `\r` not followed by `\n`). -/
theorem claim_C2_counterexample :
    (['\r'] : List Char) ≠ [] ∧ parse_imports ['\r'] = none :=
  ⟨by decide, by decide⟩

/-- C2 (amended): for every non-empty input in which every carriage return is
immediately followed by a line feed, `parse_imports` returns `Ok` with a
complete list of records, because the driver's catch-all rule can always
advance. -/
theorem claim_C2 {s : List Char} (_hne : s ≠ []) (hcr : noLoneCR s = true) :
    ∃ recs, parse_imports s = some recs :=
  parse_imports_total_of_noLoneCR hcr

/-- Witness for C2 on `a\r\nimport b`. -/
theorem claim_C2_witness :
    ∃ recs, parse_imports "a\r\nimport b".toList = some recs :=
  claim_C2 (by decide) (by decide)

/-- C3 (corrected): a `TYPE_CHECKING` guard after a `;`-terminated import
statement on the same line IS recognised, and the guarded records DO carry
`typechecking_only = true`. -/
theorem claim_C3_counterexample :
    parse_imports "import a; if TYPE_CHECKING: import b".toList =
      some [⟨"a".toList, 1, "import a".toList, false⟩,
        ⟨"b".toList, 1, "import b".toList, true⟩] ∧
    (⟨"b".toList, 1, "import b".toList, true⟩ : Import).typechecking_only = true :=
  ⟨by decide, rfl⟩

/-- C3 (amended): the guard shape is recognised wherever the block driver
resumes, with no line-start anchoring: from ANY state whose remaining input
starts with the guard — whatever the current line number, i.e. wherever on a
line the driver's cursor stands — and under ANY nested-block parser,
`parse_if_typechecking` succeeds and its statement-list records carry
`typechecking_only = true`. -/
theorem claim_C3 (recB : PS → Option (PS × List Import)) (st : PS)
    (h : st.rest = "if TYPE_CHECKING: import x".toList) :
    parse_if_typechecking_gen recB st =
      some (⟨[], st.line⟩, [⟨['x'], st.line, "import x".toList, true⟩]) := by
  obtain ⟨rest, l⟩ := st
  simp only at h
  subst h
  have h1 : pTag "if".toList ⟨"if TYPE_CHECKING: import x".toList, l⟩ =
      some ⟨" TYPE_CHECKING: import x".toList, l⟩ := by
    rw [show ("if TYPE_CHECKING: import x".toList : List Char) =
      "if".toList ++ " TYPE_CHECKING: import x".toList from by decide]
    exact pTag_append_nonl _ _ (by decide)
  have h2 : parse_space1 ⟨" TYPE_CHECKING: import x".toList, l⟩ =
      some ⟨"TYPE_CHECKING: import x".toList, l⟩ := by
    rw [show (" TYPE_CHECKING: import x".toList : List Char) =
      ' ' :: "TYPE_CHECKING: import x".toList from by decide]
    exact parse_space1_single (by decide)
  have h3 : pTag "TYPE_CHECKING".toList ⟨"TYPE_CHECKING: import x".toList, l⟩ =
      some ⟨": import x".toList, l⟩ := by
    rw [show ("TYPE_CHECKING: import x".toList : List Char) =
      "TYPE_CHECKING".toList ++ ": import x".toList from by decide]
    exact pTag_append_nonl _ _ (by decide)
  have h4 : parse_space0 ⟨": import x".toList, l⟩ = ⟨": import x".toList, l⟩ :=
    parse_space0_zero (by decide)
  have h5 : pTag [':'] ⟨": import x".toList, l⟩ = some ⟨" import x".toList, l⟩ := by
    rw [show (": import x".toList : List Char) = [':'] ++ " import x".toList from by decide]
    exact pTag_append_nonl _ _ (by decide)
  have h6 : parse_space0 ⟨" import x".toList, l⟩ = ⟨"import x".toList, l⟩ := by
    rw [show (" import x".toList : List Char) = ' ' :: "import x".toList from by decide]
    exact parse_space0_single (by decide)
  have h7 : parse_import_statement_list true ⟨"import x".toList, l⟩ =
      some (⟨[], l⟩, [⟨['x'], l, "import x".toList, true⟩]) := by
    have := @parse_import_statement_list_eval [⟨[['x']], none⟩] (by simp)
      (by
        intro it hit
        simp only [List.mem_cons, List.not_mem_nil, or_false] at hit
        subst hit
        refine ⟨by simp, ?_, by intro a ha; simp at ha⟩
        intro s hs
        simp only [List.mem_cons, List.not_mem_nil, or_false] at hs
        subst hs
        exact ⟨by simp, by decide⟩)
      [] [] l stopSuffix_nil true
      (parse_space0_zero rfl) rfl
    exact this
  have h8 : parse_space0 ⟨([] : List Char), l⟩ = ⟨[], l⟩ := parse_space0_zero rfl
  have h9 : optCommentState ⟨([] : List Char), l⟩ = ⟨[], l⟩ := rfl
  unfold parse_if_typechecking_gen
  simp only [h1, h2, h3, h4, h5, h6, h7, h8, h9]

/-- Witness: C3 (amended) at line 7 with a trivial nested-block parser. -/
theorem claim_C3_witness :
    parse_if_typechecking_gen (fun _ => none)
      ⟨"if TYPE_CHECKING: import x".toList, 7⟩ =
      some (⟨[], 7⟩, [⟨['x'], 7, "import x".toList, true⟩]) :=
  claim_C3 (fun _ => none) ⟨"if TYPE_CHECKING: import x".toList, 7⟩ rfl

/-- C4: for any input on which `parse_imports` succeeds, the returned records
appear in non-decreasing `line_number` order; and records are emitted in
left-to-right source order — on any rendered simple-import program the
(imported_object, line_number) sequence equals `expectedPairs`, which lists
the lines top-to-bottom and, within each line, the items in textual
left-to-right order, so records sharing a line appear left-to-right. -/
theorem claim_C4 :
    (∀ (s : List Char) (recs : List Import), parse_imports s = some recs →
      recs.Pairwise fun a b => a.line_number ≤ b.line_number) ∧
    (∀ p : List SLine, validProg p →
      ∃ recs, parse_imports (renderProg p) = some recs ∧
        recs.map (fun r => (r.imported_object, r.line_number)) =
          expectedPairs 1 p) := by
  constructor
  · intro s recs h
    unfold parse_imports at h
    split at h
    · exact absurd h (by simp)
    · rename_i st' recs' h1
      split at h
      · cases h
        exact (parse_block_spec h1).2.1
      · exact absurd h (by simp)
  · intro p hp
    obtain ⟨recs, h1, h2, -⟩ := parse_imports_prog hp
    exact ⟨recs, h1, h2⟩

/-- Witness for C4: sortedness on a two-line input, and source order on the
one-line two-item program `import a, b` (equal-line records left-to-right). -/
theorem claim_C4_witness :
    List.Pairwise (fun a b => a.line_number ≤ b.line_number)
      [(⟨"a".toList, 1, "import a".toList, false⟩ : Import),
        ⟨"b".toList, 2, "import b".toList, false⟩] ∧
    (∃ recs, parse_imports
        (renderProg [⟨[⟨[['a']], none⟩, ⟨[['b']], none⟩], none⟩]) = some recs ∧
      recs.map (fun r => (r.imported_object, r.line_number)) =
        expectedPairs 1 [⟨[⟨[['a']], none⟩, ⟨[['b']], none⟩], none⟩]) :=
  ⟨claim_C4.1 "import a\nimport b".toList
    [⟨"a".toList, 1, "import a".toList, false⟩,
      ⟨"b".toList, 2, "import b".toList, false⟩] (by decide),
   claim_C4.2 [⟨[⟨[['a']], none⟩, ⟨[['b']], none⟩], none⟩] (by
    intro L hL
    simp only [List.mem_cons, List.not_mem_nil, or_false] at hL
    subst hL
    refine ⟨by simp, ?_, by intro c hc; simp at hc⟩
    intro it hit
    simp only [List.mem_cons, List.not_mem_nil, or_false] at hit
    rcases hit with rfl | rfl
    · refine ⟨by simp, ?_, by intro a ha; simp at ha⟩
      intro s hs
      simp only [List.mem_cons, List.not_mem_nil, or_false] at hs
      subst hs
      exact ⟨by simp, by decide⟩
    · refine ⟨by simp, ?_, by intro a ha; simp at ha⟩
      intro s hs
      simp only [List.mem_cons, List.not_mem_nil, or_false] at hs
      subst hs
      exact ⟨by simp, by decide⟩)⟩

/-- C5 (corrected): a statement in a `;`-chain records the line on which the
statement itself starts, so a backslash-newline inside the chain gives later
statements a later line number. -/
theorem claim_C5_counterexample :
    parse_import_statement_list false ⟨"import a;\\\nimport b".toList, 1⟩ =
      some (⟨[], 2⟩, [⟨"a".toList, 1, "import a".toList, false⟩,
        ⟨"b".toList, 2, "import b".toList, false⟩]) ∧
    ¬∀ r ∈ [(⟨"a".toList, 1, "import a".toList, false⟩ : Import),
        ⟨"b".toList, 2, "import b".toList, false⟩], r.line_number = 1 :=
  ⟨by decide, by decide⟩

/-- C5 (amended): all records of a `;`-separated compound chain share the
chain's starting line number provided the chain consumes no newline (i.e. it
contains no backslash-newline continuation). -/
theorem claim_C5 {tco : Bool} {st st' : PS} {recs : List Import}
    (h : parse_import_statement_list tco st = some (st', recs))
    (hline : st'.line = st.line) :
    ∀ r ∈ recs, r.line_number = st.line := by
  obtain ⟨-, -, -, win⟩ := parse_import_statement_list_spec h
  intro r hr
  obtain ⟨a, b⟩ := win r hr
  omega

/-- Witness for C5 on `import a; import b`: both records carry line 1. -/
theorem claim_C5_witness :
    (⟨"a".toList, 1, "import a".toList, false⟩ : Import).line_number = 1 ∧
    (⟨"b".toList, 1, "import b".toList, false⟩ : Import).line_number = 1 :=
  ⟨@claim_C5 false ⟨"import a; import b".toList, 1⟩ ⟨[], 1⟩
    [⟨"a".toList, 1, "import a".toList, false⟩,
      ⟨"b".toList, 1, "import b".toList, false⟩] (by decide) (by decide)
    ⟨"a".toList, 1, "import a".toList, false⟩ (by decide),
   @claim_C5 false ⟨"import a; import b".toList, 1⟩ ⟨[], 1⟩
    [⟨"a".toList, 1, "import a".toList, false⟩,
      ⟨"b".toList, 1, "import b".toList, false⟩] (by decide) (by decide)
    ⟨"b".toList, 1, "import b".toList, false⟩ (by decide)⟩

/-- C6: import-like text inside an end-of-line comment (`# …`, any body free
of line terminators) or inside a terminated triple-quoted block literal
(`"""…"""`, body without an inner `"""` and not ending in `"`) produces zero
Import records. -/
theorem claim_C6 : ∀ (x y : List Char), noCRLF x = true →
    firstOccIdx q3 y = none → y.getLast? ≠ some '"' →
    parse_imports ('#' :: x) = some [] ∧
    parse_imports (q3 ++ (y ++ q3)) = some [] := by
  intro x y hx hy hl
  constructor
  · exact parse_imports_one_step (fun recB => block_step_comment_eol hx 1)
  · exact parse_imports_one_step (fun recB => block_step_triquote hy hl 1)

/-- Witness: C6 on `# import x` and `"""import x"""`. -/
theorem claim_C6_witness :
    parse_imports ('#' :: " import x".toList) = some [] ∧
    parse_imports (q3 ++ ("import x".toList ++ q3)) = some [] :=
  claim_C6 " import x".toList "import x".toList (by decide) (by decide) (by decide)

/-- C7 (corrected): on input with an unterminated triple-quoted literal the
parser neither skips to end of input nor reports an error — the opening line
is skipped by the catch-all rule and parsing continues, emitting records from
inside the "unterminated literal" region. -/
theorem claim_C7_counterexample :
    parse_imports ('"' :: '"' :: '"' :: '\n' :: "import x".toList) =
      some [⟨"x".toList, 2, "import x".toList, false⟩] ∧
    ([(⟨"x".toList, 2, "import x".toList, false⟩ : Import)] : List Import) ≠ [] :=
  ⟨by decide, by decide⟩

/-- C7 (amended): when the closing triple-quote never appears, the block
literal alternative fails and the driver's catch-all rule skips only from the
opening triple-quote to the end of that line, emitting no records for it;
the driver then resumes at the newline, so parsing continues on the following
lines. -/
theorem claim_C7 (recB : PS → Option (PS × List Import)) (tco : Bool) (st : PS)
    (x z : List Char) (hr : st.rest = q3 ++ (x ++ '\n' :: z)) (hx : noCRLF x = true)
    (hno : firstOccIdx q3 (x ++ '\n' :: z) = none) :
    block_step_gen recB tco st = some (⟨'\n' :: z, st.line⟩, []) := by
  obtain ⟨rest, l⟩ := st
  simp only at hr
  subst hr
  have h1 : parse_if_typechecking_gen recB ⟨q3 ++ (x ++ '\n' :: z), l⟩ = none := rfl
  have h2 : parse_space1 ⟨q3 ++ (x ++ '\n' :: z), l⟩ = none := rfl
  have h3 : pLineEnding ⟨q3 ++ (x ++ '\n' :: z), l⟩ = none := rfl
  have h4 : parse_multiline_comment ⟨q3 ++ (x ++ '\n' :: z), l⟩ = none := by
    unfold parse_multiline_comment
    unfold pDelimitedBy
    have ht : pTag q3 ⟨q3 ++ (x ++ '\n' :: z), l⟩ = some ⟨x ++ '\n' :: z, l⟩ := by
      have := pTag_append_nonl (t := q3) (x ++ '\n' :: z) l (by decide)
      simpa using this
    have htu : pTakeUntil q3 ⟨x ++ '\n' :: z, l⟩ = none := by
      unfold pTakeUntil
      simp only [hno]
    have ht3 : pTag t3 ⟨q3 ++ (x ++ '\n' :: z), l⟩ = none := rfl
    simp only [ht, htu, ht3]
  have h5 : parse_comment ⟨q3 ++ (x ++ '\n' :: z), l⟩ = none := rfl
  have h6 : parse_import_statement_list tco ⟨q3 ++ (x ++ '\n' :: z), l⟩ = none := rfl
  have hq : noCRLF (q3 ++ x) = true := by
    unfold noCRLF at hx ⊢
    rw [List.all_append, hx]
    decide
  have h7 : pNotLineEnding ⟨q3 ++ (x ++ '\n' :: z), l⟩ =
      some (⟨'\n' :: z, l⟩, q3 ++ x) := by
    unfold pNotLineEnding
    rw [show (q3 ++ (x ++ '\n' :: z) : List Char) = (q3 ++ x) ++ '\n' :: z from by
      rw [List.append_assoc]]
    simp only [nleLen_append_of_noCRLF hq]
    rw [adv_append (q3 ++ x) ('\n' :: z) l, List.take_left]
    simp [countNL_eq_zero_of_noCRLF hq]
  unfold block_step_gen
  simp only [h1, h2, h3, h4, h5, h6, h7]
  simp only [show ((q3 ++ x : List Char).isEmpty : Bool) = false from rfl]
  simp

/-- Witness: C7 (amended) on the state remaining after an opening triple-quote
with `abc` and a following `import y` line. -/
theorem claim_C7_witness :
    block_step_gen (fun _ => none) false
      ⟨q3 ++ ("abc".toList ++ '\n' :: "import y".toList), 5⟩ =
      some (⟨'\n' :: "import y".toList, 5⟩, []) :=
  claim_C7 (fun _ => none) false
    ⟨q3 ++ ("abc".toList ++ '\n' :: "import y".toList), 5⟩
    "abc".toList "import y".toList rfl (by decide) (by decide)

/-- C8: every alternative of the block driver loop consumes at least one
character whenever it succeeds (so each driver round strictly shrinks the
remaining input), and the driver loop itself always terminates with a result
(it never errors, for any positive nesting fuel). -/
theorem claim_C8 :
    (∀ (fuel : Nat) (tco : Bool) (st st' : PS) (recs : List Import),
      block_step_gen (fun s => parse_block fuel true s) tco st = some (st', recs) →
      st'.rest.length < st.rest.length) ∧
    (∀ fuel : Nat, 1 ≤ fuel → ∀ (tco : Bool) (st : PS),
      ∃ st' recs, parse_block fuel tco st = some (st', recs)) :=
  ⟨fun _ _ _ _ _ h =>
    (block_step_gen_spec (fun _ _ _ hc => parse_block_spec hc) h).2.1,
   fun _ hf tco st => parse_block_total hf tco st⟩

/-- Witness for C8: one driver round on `import a` consumes all 8 characters,
and the driver returns on the same input. -/
theorem claim_C8_witness :
    ((⟨[], 1⟩ : PS).rest.length < (⟨"import a".toList, 1⟩ : PS).rest.length) ∧
    ∃ st' recs, parse_block 1 false ⟨"import a".toList, 1⟩ = some (st', recs) :=
  ⟨claim_C8.1 9 false ⟨"import a".toList, 1⟩ ⟨[], 1⟩
    [⟨"a".toList, 1, "import a".toList, false⟩] (by decide),
   claim_C8.2 1 (by decide) false ⟨"import a".toList, 1⟩⟩

/-- C9: on any input consisting solely of simple `import` statements (each
line `import <module> [as <alias>][, ...]` with an optional trailing comment),
the prototype parser of `src/nom.rs` and the main parser of `src/lib.rs` both
succeed and return the same sequence of (imported_object, line_number) pairs,
and every record from the main parser has `typechecking_only = false`. -/
theorem claim_C9 {p : List SLine} (hp : validProg p) :
    ∃ recsM recsN,
      parse_imports (renderProg p) = some recsM ∧
      NomRs.parse_imports (renderProg p) = some recsN ∧
      recsM.map (fun r => (r.imported_object, r.line_number)) =
        recsN.map (fun r => (r.imported_object, r.line_number)) ∧
      ∀ r ∈ recsM, r.typechecking_only = false := by
  obtain ⟨recsM, hM, hMp, hMt⟩ := parse_imports_prog hp
  obtain ⟨recsN, hN, hNp⟩ := nomrs_parse_imports_prog hp
  exact ⟨recsM, recsN, hM, hN, by rw [hMp, hNp], hMt⟩

/-- Witness: C9 at the two-line program `import foo.bar as fb, baz # c` /
`import qux`. -/
theorem claim_C9_witness :
    ∃ recsM recsN,
      parse_imports (renderProg
        [⟨[⟨[['f','o','o'], ['b','a','r']], some ['f','b']⟩, ⟨[['b','a','z']], none⟩],
          some ['c']⟩, ⟨[⟨[['q','u','x']], none⟩], none⟩]) = some recsM ∧
      NomRs.parse_imports (renderProg
        [⟨[⟨[['f','o','o'], ['b','a','r']], some ['f','b']⟩, ⟨[['b','a','z']], none⟩],
          some ['c']⟩, ⟨[⟨[['q','u','x']], none⟩], none⟩]) = some recsN ∧
      recsM.map (fun r => (r.imported_object, r.line_number)) =
        recsN.map (fun r => (r.imported_object, r.line_number)) ∧
      ∀ r ∈ recsM, r.typechecking_only = false :=
  claim_C9 (by
    intro L hL
    simp only [List.mem_cons, List.not_mem_nil, or_false] at hL
    rcases hL with rfl | rfl
    · refine ⟨by simp, ?_, ?_⟩
      · intro it hit
        simp only [List.mem_cons, List.not_mem_nil, or_false] at hit
        rcases hit with rfl | rfl
        · refine ⟨by simp, ?_, ?_⟩
          · intro s hs
            simp only [List.mem_cons, List.not_mem_nil, or_false] at hs
            rcases hs with rfl | rfl
            · exact ⟨by simp, by decide⟩
            · exact ⟨by simp, by decide⟩
          · intro a ha
            simp only [Option.mem_def, Option.some.injEq] at ha
            subst ha
            exact ⟨by simp, by decide⟩
        · refine ⟨by simp, ?_, ?_⟩
          · intro s hs
            simp only [List.mem_cons, List.not_mem_nil, or_false] at hs
            rcases hs with rfl
            exact ⟨by simp, by decide⟩
          · intro a ha
            simp at ha
      · intro c hc
        simp only [Option.mem_def, Option.some.injEq] at hc
        subst hc
        decide
    · refine ⟨by simp, ?_, ?_⟩
      · intro it hit
        simp only [List.mem_cons, List.not_mem_nil, or_false] at hit
        rcases hit with rfl
        refine ⟨by simp, ?_, ?_⟩
        · intro s hs
          simp only [List.mem_cons, List.not_mem_nil, or_false] at hs
          rcases hs with rfl
          exact ⟨by simp, by decide⟩
        · intro a ha
          simp at ha
      · intro c hc
        simp at hc)

/-- C10: `parse_imports` on the empty string returns `Ok` with an empty
record list. -/
theorem claim_C10 : parse_imports [] = some [] := by decide

end Pyimport
